import Mathlib

/-!
Verification of the fj JSON formatter (Go) against its specification.

The core under study is the formatter package (Format, sortJSONKeys,
ValidateJSON, AutoCorrect) together with the input resolver of the driver
(getInput, readFromURL).  The Go code manipulates byte strings holding UTF-8
text; we model text as `List Char` (Unicode scalar values), which is faithful
because every observable operation of the program is on well-formed text and
byte-wise lexicographic comparison of UTF-8 strings coincides with
code-point-wise comparison.

The formatter delegates parsing and printing to Go's standard library
`encoding/json` with values decoded into `interface{}`.  That library is
embedded here as follows:

* `json.Unmarshal` into `interface{}` is `unmarshal`: a strict JSON parser
  producing the value tree `J`.  Go decodes objects into
  `map[string]interface{}`; a Go map is an unordered finite map in which a
  repeated key keeps the last value.  We represent that map as an association
  list in first-occurrence order with overwrite on repetition (`dictInsert`),
  which realises exactly the observable map: same key set, same values.
* Go decodes numbers into `float64`.  We model a JSON number by the exact
  decimal it denotes, in the normal form `m / 10 ^ e` (no trailing zero in the
  fraction, `e = 0` for integers).  Both models round-trip through printing;
  the float model additionally rounds extreme literals, which no claim under
  study observes, and rejects literals outside the float64 range, which only
  shrinks the set of valid documents quantified over.
* `json.MarshalIndent(v, "", indent)` is `marshalIndent`: the encoder emits
  the keys of every map in sorted order while recursing through the value, so
  its output on `v` is the plain structural print of the recursively
  key-sorted value; we therefore factor it as `serVal ∘ sortJSONKeys`.
  String escaping follows the encoder with its default HTML escaping.
* `strings.Repeat(" ", n)` panics when `n` is negative; `stringsRepeat`
  returns `none` in that case and `Format` maps it to the outcome
  `FmtResult.panicked`.
-/

namespace FJ

/-- A decoded JSON value, as produced by Go's `json.Unmarshal` into
`interface{}`: `nil`, `bool`, `float64` (here: exact decimal `m / 10 ^ e`),
`string`, `[]interface{}`, `map[string]interface{}` (association list in
first-occurrence order, no repeated keys). -/
inductive J where
  | null
  | bool (b : Bool)
  | num (m : Int) (e : Nat)
  | str (s : List Char)
  | arr (xs : List J)
  | obj (kvs : List (List Char × J))

/-- JSON insignificant whitespace, as accepted by Go's scanner. -/
def isWsChar (c : Char) : Bool :=
  c == ' ' || c == '\t' || c == '\n' || c == '\r'

/-- Skip insignificant whitespace. -/
def skipWs : List Char → List Char
  | [] => []
  | c :: rest => if isWsChar c then skipWs rest else c :: rest

/-- Numeric value of a decimal digit character. -/
def digitVal (c : Char) : Nat := c.toNat - 48

/-- Read a maximal (possibly empty) run of decimal digits. -/
def readDigits : List Char → List Nat × List Char
  | [] => ([], [])
  | c :: rest =>
    if c.isDigit then
      let p := readDigits rest
      (digitVal c :: p.1, p.2)
    else ([], c :: rest)

/-- Value of a most-significant-first digit list. -/
def digitsToNat (ds : List Nat) : Nat := ds.foldl (fun a d => 10 * a + d) 0

/-- Strip factors of ten from `m` into the scale `e`, yielding the normal
form of `m / 10 ^ e`: the fraction ends in a nonzero digit, and zero has
scale zero. -/
def normNum : Nat → Nat → Nat × Nat
  | m, 0 => (m, 0)
  | m, e + 1 =>
    if m = 0 then (0, 0)
    else if m % 10 = 0 then normNum (m / 10) e
    else (m, e + 1)

/-- Combine integer digits, fraction digits and exponent into the normal
form of the denoted decimal. -/
def mkNum (ip fp : List Nat) (ex : Int) : Nat × Nat :=
  let base := digitsToNat (ip ++ fp)
  let sc : Int := ex - fp.length
  if 0 ≤ sc then (base * 10 ^ sc.toNat, 0)
  else normNum base (-sc).toNat

/-- Parse the exponent digits (after `e`/`E` and an optional sign). -/
def parseExpDigits (ip fp : List Nat) (neg : Bool) (s : List Char) :
    Option ((Nat × Nat) × List Char) :=
  match readDigits s with
  | ([], _) => none
  | (ed, r) =>
    let e : Int := digitsToNat ed
    some (mkNum ip fp (if neg then -e else e), r)

/-- Parse the optional exponent part of a number literal. -/
def parseExpPart (ip fp : List Nat) (s : List Char) :
    Option ((Nat × Nat) × List Char) :=
  match s with
  | 'e' :: '+' :: r => parseExpDigits ip fp false r
  | 'e' :: '-' :: r => parseExpDigits ip fp true r
  | 'e' :: r => parseExpDigits ip fp false r
  | 'E' :: '+' :: r => parseExpDigits ip fp false r
  | 'E' :: '-' :: r => parseExpDigits ip fp true r
  | 'E' :: r => parseExpDigits ip fp false r
  | _ => some (mkNum ip fp 0, s)

/-- Parse the optional fraction, then the optional exponent. -/
def parseFracExp (ip : List Nat) (s : List Char) :
    Option ((Nat × Nat) × List Char) :=
  match s with
  | '.' :: r =>
    match readDigits r with
    | ([], _) => none
    | (fp, r') => parseExpPart ip fp r'
  | _ => parseExpPart ip [] s

/-- Parse an unsigned number literal: `0` or a nonzero-led digit run, then
fraction and exponent.  A leading zero may not be followed by more integer
digits, exactly as in the strict grammar Go enforces. -/
def parseNumMag (s : List Char) : Option ((Nat × Nat) × List Char) :=
  match s with
  | '0' :: r => parseFracExp [0] r
  | c :: r =>
    if c.isDigit then
      let p := readDigits r
      parseFracExp (digitVal c :: p.1) p.2
    else none
  | [] => none

/-- Parse a number token with its optional leading minus sign. -/
def parseNumTok (s : List Char) : Option (J × List Char) :=
  match s with
  | '-' :: r => (parseNumMag r).map (fun p => (J.num (-(p.1.1 : Int)) p.1.2, p.2))
  | _ => (parseNumMag s).map (fun p => (J.num (p.1.1 : Int) p.1.2, p.2))

/-- Value of one hexadecimal digit character (either case). -/
def hexVal (c : Char) : Option Nat :=
  if '0' ≤ c ∧ c ≤ '9' then some (c.toNat - 48)
  else if 'a' ≤ c ∧ c ≤ 'f' then some (c.toNat - 87)
  else if 'A' ≤ c ∧ c ≤ 'F' then some (c.toNat - 55)
  else none

/-- Value of a four-hex-digit escape payload. -/
def hex4 (a b c d : Char) : Option Nat :=
  match hexVal a, hexVal b, hexVal c, hexVal d with
  | some x, some y, some z, some w => some (4096 * x + 256 * y + 16 * z + w)
  | _, _, _, _ => none

/-- The single-character escapes accepted after a backslash. -/
def escMap (k : Char) : Option Char :=
  if k = '"' then some '"'
  else if k = '\\' then some '\\'
  else if k = '/' then some '/'
  else if k = 'b' then some '\x08'
  else if k = 'f' then some '\x0c'
  else if k = 'n' then some '\n'
  else if k = 'r' then some '\r'
  else if k = 't' then some '\t'
  else none

/-- Parse the body of a string literal after the opening quote, returning the
decoded characters and the input after the closing quote.  `\uXXXX` escapes
follow Go's decoder: a high surrogate pairs with an immediately following
low-surrogate escape, and an unpaired surrogate decodes to U+FFFD with the
input position left at the following escape; a raw control character is
rejected.  Each step consumes at least one character and one unit of fuel,
so `parseStrBody` below may start the fuel at the input length. -/
def parseStrBodyF : Nat → List Char → Option (List Char × List Char)
  | _, '"' :: rest => some ([], rest)
  | fuel + 1, '\\' :: 'u' :: a :: b :: c :: d :: rest =>
    match hex4 a b c d with
    | none => none
    | some n =>
      if 0xD800 ≤ n ∧ n < 0xDC00 then
        match rest with
        | '\\' :: 'u' :: a2 :: b2 :: c2 :: d2 :: rest2 =>
          match hex4 a2 b2 c2 d2 with
          | some n2 =>
            if 0xDC00 ≤ n2 ∧ n2 < 0xE000 then
              (parseStrBodyF fuel rest2).map (fun p =>
                (Char.ofNat (0x10000 + (n - 0xD800) * 0x400 + (n2 - 0xDC00)) :: p.1, p.2))
            else
              (parseStrBodyF fuel ('\\' :: 'u' :: a2 :: b2 :: c2 :: d2 :: rest2)).map
                (fun p => ('�' :: p.1, p.2))
          | none => none
        | other => (parseStrBodyF fuel other).map (fun p => ('�' :: p.1, p.2))
      else if 0xDC00 ≤ n ∧ n < 0xE000 then
        (parseStrBodyF fuel rest).map (fun p => ('�' :: p.1, p.2))
      else
        (parseStrBodyF fuel rest).map (fun p => (Char.ofNat n :: p.1, p.2))
  | fuel + 1, '\\' :: k :: rest =>
    match escMap k with
    | some c => (parseStrBodyF fuel rest).map (fun p => (c :: p.1, p.2))
    | none => none
  | fuel + 1, c :: rest =>
    if c.toNat < 0x20 then none
    else (parseStrBodyF fuel rest).map (fun p => (c :: p.1, p.2))
  | _, _ => none

/-- Parse a string literal body, with enough fuel for the whole input. -/
def parseStrBody (s : List Char) : Option (List Char × List Char) :=
  parseStrBodyF s.length s

/-- Go map assignment `m[k] = v` on the association-list representation:
overwrite in place if the key is present, else append. -/
def dictInsert (k : List Char) (v : J) : List (List Char × J) → List (List Char × J)
  | [] => [(k, v)]
  | (k', v') :: rest =>
    if k = k' then (k', v) :: rest else (k', v') :: dictInsert k v rest

mutual

/-- Parse one JSON value.  The input is assumed to start at a token (callers
skip whitespace); the fuel only bounds the nesting of recursive calls and is
chosen large enough by `unmarshal`. -/
def parseVal : Nat → List Char → Option (J × List Char)
  | 0, _ => none
  | fuel + 1, s =>
    match s with
    | 'n' :: 'u' :: 'l' :: 'l' :: r => some (J.null, r)
    | 't' :: 'r' :: 'u' :: 'e' :: r => some (J.bool true, r)
    | 'f' :: 'a' :: 'l' :: 's' :: 'e' :: r => some (J.bool false, r)
    | '"' :: r => (parseStrBody r).map (fun p => (J.str p.1, p.2))
    | '[' :: r =>
      match skipWs r with
      | ']' :: r' => some (J.arr [], r')
      | r' => (parseElems fuel r').map (fun p => (J.arr p.1, p.2))
    | '\x7b' :: r =>
      match skipWs r with
      | '\x7d' :: r' => some (J.obj [], r')
      | r' => (parseMems fuel [] r').map (fun p => (J.obj p.1, p.2))
    | _ => parseNumTok s

/-- Parse the elements of a nonempty array, consuming the closing bracket. -/
def parseElems : Nat → List Char → Option (List J × List Char)
  | 0, _ => none
  | fuel + 1, s =>
    match parseVal fuel s with
    | none => none
    | some (v, r) =>
      match skipWs r with
      | ',' :: r' =>
        match parseElems fuel (skipWs r') with
        | some (vs, r'') => some (v :: vs, r'')
        | none => none
      | ']' :: r' => some ([v], r')
      | _ => none

/-- Parse the members of a nonempty object, consuming the closing brace; the
accumulator receives each member by `dictInsert`, mirroring the Go map. -/
def parseMems : Nat → List (List Char × J) → List Char →
    Option (List (List Char × J) × List Char)
  | 0, _, _ => none
  | fuel + 1, acc, s =>
    match s with
    | '"' :: r =>
      match parseStrBody r with
      | none => none
      | some (k, r1) =>
        match skipWs r1 with
        | ':' :: r2 =>
          match parseVal fuel (skipWs r2) with
          | none => none
          | some (v, r3) =>
            match skipWs r3 with
            | ',' :: r4 => parseMems fuel (dictInsert k v acc) (skipWs r4)
            | '\x7d' :: r4 => some (dictInsert k v acc, r4)
            | _ => none
        | _ => none
    | _ => none

end

/-- Go's `json.Unmarshal` into `interface{}`: exactly one JSON document,
surrounded by optional whitespace.  The fuel `length + 1` dominates any
nesting the input can express, since each level consumes input. -/
def unmarshal (data : List Char) : Option J :=
  let t := skipWs data
  match parseVal (t.length + 1) t with
  | some (v, rest) => if skipWs rest = [] then some v else none
  | none => none

/-- Lower-case hexadecimal digit character. -/
def hexDigitChar (n : Nat) : Char :=
  if n < 10 then Char.ofNat (48 + n) else Char.ofNat (87 + n)

/-- The escape Go's encoder (with its default HTML escaping) emits for one
character: quote and backslash are backslash-escaped, `<`, `>`, `&` and the
control characters become `\u00xx` except for the newline, carriage-return
and tab shorthands, U+2028 and U+2029 are escaped, and everything else is
emitted verbatim. -/
def escChar (c : Char) : List Char :=
  if c = '"' then ['\\', '"']
  else if c = '\\' then ['\\', '\\']
  else if c = '<' ∨ c = '>' ∨ c = '&' then
    ['\\', 'u', '0', '0', hexDigitChar (c.toNat / 16), hexDigitChar (c.toNat % 16)]
  else if c.toNat < 0x20 then
    if c = '\n' then ['\\', 'n']
    else if c = '\r' then ['\\', 'r']
    else if c = '\t' then ['\\', 't']
    else ['\\', 'u', '0', '0', hexDigitChar (c.toNat / 16), hexDigitChar (c.toNat % 16)]
  else if c.toNat = 0x2028 ∨ c.toNat = 0x2029 then
    ['\\', 'u', '2', '0', '2', hexDigitChar (c.toNat % 16)]
  else [c]

/-- Escape a whole string body. -/
def escBody (s : List Char) : List Char := s.foldr (fun c acc => escChar c ++ acc) []

/-- Decimal digit characters of `n`, most significant first (empty for 0). -/
def natDigitChars (n : Nat) : List Char :=
  (Nat.digits 10 n).reverse.map (fun d => Char.ofNat (48 + d))

/-- Print the magnitude `n / 10 ^ e` of a normal-form decimal. -/
def serNumMag (n : Nat) (e : Nat) : List Char :=
  if e = 0 then (if n = 0 then ['0'] else natDigitChars n)
  else
    let ds := natDigitChars n
    if e < ds.length then ds.take (ds.length - e) ++ '.' :: ds.drop (ds.length - e)
    else '0' :: '.' :: (List.replicate (e - ds.length) '0' ++ ds)

/-- Print a normal-form decimal with its sign. -/
def serNum (m : Int) (e : Nat) : List Char :=
  if m < 0 then '-' :: serNumMag m.natAbs e else serNumMag m.natAbs e

/-- `indent` repeated `d` times: the indentation of nesting depth `d`. -/
def indentN (ind : List Char) : Nat → List Char
  | 0 => []
  | d + 1 => ind ++ indentN ind d

/-- Ordering of object members by key; Go's encoder sorts map keys with
`sort.Strings`, byte-wise comparison, which on UTF-8 text is the
lexicographic code-point order used here. -/
def keyLe (p q : List Char × J) : Prop := p.1 ≤ q.1

instance : DecidableRel keyLe := fun p q => (inferInstance : Decidable (p.1 ≤ q.1))

instance : IsTotal (List Char × J) keyLe := ⟨fun p q => le_total p.1 q.1⟩

instance : IsTrans (List Char × J) keyLe := ⟨fun _ _ _ h₁ h₂ => le_trans h₁ h₂⟩

mutual

/-- `sortJSONKeys` of the formatter: for an object, collect the keys, sort
them, and build a fresh map with the recursively transformed values; arrays
are transformed element-wise in place; scalars are returned unchanged.  On
the association-list representation, sorting the keys and recursing into the
values commute, so the recursion is written inside-first to make it
structural; the resulting list is the same. -/
def sortJSONKeys : J → J
  | .obj kvs => .obj (List.insertionSort keyLe (sjkMems kvs))
  | .arr xs => .arr (sjkList xs)
  | .null => .null
  | .bool b => .bool b
  | .num m e => .num m e
  | .str s => .str s

/-- Element-wise `sortJSONKeys` over an array. -/
def sjkList : List J → List J
  | [] => []
  | x :: xs => sortJSONKeys x :: sjkList xs

/-- Value-wise `sortJSONKeys` over the members of an object. -/
def sjkMems : List (List Char × J) → List (List Char × J)
  | [] => []
  | (k, v) :: kvs => (k, sortJSONKeys v) :: sjkMems kvs

end

mutual

/-- Structural print of a value at nesting depth `d`, in the layout of
`json.MarshalIndent` with empty prefix: a nonempty container opens with a
newline, indents each item by `d + 1` units, separates items with a comma
and newline, and closes on a fresh line at depth `d`; a member key is
followed by a colon and one space; empty containers print compactly. -/
def serVal (ind : List Char) : Nat → J → List Char
  | _, .null => ['n', 'u', 'l', 'l']
  | _, .bool true => ['t', 'r', 'u', 'e']
  | _, .bool false => ['f', 'a', 'l', 's', 'e']
  | _, .num m e => serNum m e
  | _, .str s => '"' :: (escBody s ++ ['"'])
  | _, .arr [] => ['[', ']']
  | d, .arr (x :: xs) =>
    '[' :: '\n' :: (serElems ind (d + 1) (x :: xs) ++ (indentN ind d ++ [']']))
  | _, .obj [] => ['\x7b', '\x7d']
  | d, .obj (kv :: kvs) =>
    '\x7b' :: '\n' :: (serMems ind (d + 1) (kv :: kvs) ++ (indentN ind d ++ ['\x7d']))

/-- Print array elements, each on its own indented line. -/
def serElems (ind : List Char) (d : Nat) : List J → List Char
  | [] => []
  | [x] => indentN ind d ++ (serVal ind d x ++ ['\n'])
  | x :: y :: xs =>
    indentN ind d ++ (serVal ind d x ++ (',' :: '\n' :: serElems ind d (y :: xs)))

/-- Print object members, each on its own indented line. -/
def serMems (ind : List Char) (d : Nat) : List (List Char × J) → List Char
  | [] => []
  | [(k, v)] =>
    indentN ind d ++ ('"' :: (escBody k ++ ('"' :: ':' :: ' ' :: (serVal ind d v ++ ['\n']))))
  | (k, v) :: kv :: kvs =>
    indentN ind d ++
      ('"' :: (escBody k ++ ('"' :: ':' :: ' ' :: (serVal ind d v ++ (',' :: '\n' :: serMems ind d (kv :: kvs))))))

end

/-- `json.MarshalIndent(v, "", ind)`: the encoder walks the value and emits
every map's keys in sorted order, which is the structural print of the
recursively key-sorted value.  For the values produced by `unmarshal` the
encoder cannot fail. -/
def marshalIndent (v : J) (ind : List Char) : List Char :=
  serVal ind 0 (sortJSONKeys v)

/-- `formatter.Options`. -/
structure Options where
  IndentSpaces : Int
  SortKeys : Bool

/-- The observable outcomes of `formatter.Format`: a result, the wrapped
`invalid JSON: ...` parse error, or a runtime panic. -/
inductive FmtResult where
  | ok (out : List Char)
  | parseError
  | panicked
  deriving DecidableEq

/-- `strings.Repeat(" ", n)`: panics (modelled as `none`) when `n` is
negative. -/
def stringsRepeat (w : Int) : Option (List Char) :=
  if w < 0 then none else some (List.replicate w.toNat ' ')

/-- `formatter.Format`: unmarshal, optionally sort keys, build the
indentation string, marshal with indentation. -/
def Format (data : List Char) (opts : Options) : FmtResult :=
  match unmarshal data with
  | none => .parseError
  | some v =>
    let v' := if opts.SortKeys then sortJSONKeys v else v
    match stringsRepeat opts.IndentSpaces with
    | none => .panicked
    | some ind => .ok (marshalIndent v' ind)

/-- `formatter.ValidateJSON`: the boolean component; the Go function returns
`(false, err)` exactly when `json.Unmarshal` fails and `(true, nil)`
otherwise. -/
def ValidateJSON (data : List Char) : Bool := (unmarshal data).isSome

/-- The ASCII whitespace trimmed by `strings.TrimSpace`. -/
def isGoSpace (c : Char) : Bool :=
  c == ' ' || c == '\t' || c == '\n' || c == '\x0b' || c == '\x0c' || c == '\r'

/-- `strings.TrimSpace`. -/
def trimSpace (s : List Char) : List Char :=
  ((s.dropWhile isGoSpace).reverse.dropWhile isGoSpace).reverse

/-- `strings.Replace(s, old, new, 1)`: replace the leftmost occurrence; an
empty pattern inserts at the start. -/
def replaceFirst (old new : List Char) : List Char → List Char
  | [] => if old = [] then new else []
  | c :: rest =>
    if old = [] then new ++ c :: rest
    else if old.isPrefixOf (c :: rest) then new ++ List.drop (old.length - 1) rest
    else c :: replaceFirst old new rest

/-- `strings.ReplaceAll`: replace every leftmost non-overlapping occurrence,
continuing after the replaced text.  One unit of fuel per consumed
character suffices, so the wrapper starts the fuel at the input length. -/
def replaceAllF (old new : List Char) : Nat → List Char → List Char
  | _, [] => []
  | 0, s => s
  | fuel + 1, c :: rest =>
    if old ≠ [] ∧ old.isPrefixOf (c :: rest) then
      new ++ replaceAllF old new fuel (List.drop (old.length - 1) rest)
    else c :: replaceAllF old new fuel rest

/-- `strings.ReplaceAll`. -/
def replaceAll (old new : List Char) (s : List Char) : List Char :=
  replaceAllF old new s.length s

/-- `strings.Split(s, "\n")`. -/
def splitNl : List Char → List (List Char)
  | [] => [[]]
  | c :: rest =>
    if c = '\n' then [] :: splitNl rest
    else
      match splitNl rest with
      | [] => [[c]]
      | g :: gs => (c :: g) :: gs

/-- `strings.Join(lines, "\n")`. -/
def joinNl : List (List Char) → List Char
  | [] => []
  | [l] => l
  | l :: l₂ :: ls => l ++ '\n' :: joinNl (l₂ :: ls)

/-- The key candidate of a line: `strings.SplitN(line, ":", 2)[0]` (the text
before the first colon) passed through `strings.TrimSpace`. -/
def keyOf (line : List Char) : List Char :=
  trimSpace (line.takeWhile (fun c => c ≠ ':'))

/-- The line with the first occurrence of its key candidate wrapped in double
quotes: `strings.Replace(line, key, "\"" + key + "\"", 1)`. -/
def wrapKey (line : List Char) : List Char :=
  replaceFirst (keyOf line) ('"' :: (keyOf line ++ ['"'])) line

/-- The per-line body of AutoCorrect's unquoted-key loop: if the line has a
colon, take the text before the first colon, trim it; if the trimmed
candidate neither starts nor ends with a double quote, wrap its first
occurrence on the line in double quotes. -/
def fixKeyLine (line : List Char) : List Char :=
  if line.contains ':' then
    if ¬ (['"'].isPrefixOf (keyOf line)) ∧ ¬ (['"'].isSuffixOf (keyOf line)) then
      wrapKey line
    else line
  else line

/-- `formatter.AutoCorrect`: repair unquoted keys line by line, drop commas
standing immediately before a newline and a closing brace or bracket, and
validate the result; `none` is the `auto-correction failed` error. -/
def AutoCorrect (data : List Char) : Option (List Char) :=
  let lines := (splitNl data).map fixKeyLine
  let s1 := joinNl lines
  let s2 := replaceAll [',', '\n', '\x7d'] ['\n', '\x7d'] s1
  let s3 := replaceAll [',', '\n', ']'] ['\n', ']'] s2
  if ValidateJSON s3 then some s3 else none

/-- What the resolver can observe about standard input: whether it is a
character device (an interactive terminal, hence nothing pending) and the
bytes a full read would deliver. -/
structure StdinState where
  isCharDevice : Bool
  content : List Char

/-- The typed failures of the input resolver relevant here. -/
inductive ResolveErr where
  | noInputPipe
  | httpError (status : Int)
  | networkError
  deriving DecidableEq

/-- `getInput` of the repository root `main.go` when no argument is given:
stat stdin; if it IS a character device, read all of it; otherwise fail with
`no input file specified in pipe`. -/
def getInputNoArgs (st : StdinState) : Except ResolveErr (List Char) :=
  if st.isCharDevice then .ok st.content
  else .error .noInputPipe

/-- `getInput` of `cmd/fj/main.go` when no argument is given: read all of
stdin unconditionally. -/
def getInputNoArgsMain (st : StdinState) : Except ResolveErr (List Char) :=
  .ok st.content

/-- What an `http.Get` can deliver: a response with a status code and body,
or a transport failure. -/
inductive HTTPResp where
  | success (status : Int) (body : List Char)
  | netFailure

/-- `readFromURL` (identical in both `main.go` revisions): a transport error
propagates; a response with status other than `http.StatusOK` (200) fails
with the status in the message; otherwise the body is returned. -/
def readFromURL : HTTPResp → Except ResolveErr (List Char)
  | .netFailure => .error .networkError
  | .success st body =>
    if st ≠ 200 then .error (.httpError st) else .ok body

mutual

/-- Invariant of every value `unmarshal` produces: object key lists have no
repetition (they represent Go maps) and numbers are in normal form. -/
def wfVal : J → Prop
  | .null => True
  | .bool _ => True
  | .num m e => e = 0 ∨ m.natAbs % 10 ≠ 0
  | .str _ => True
  | .arr xs => wfList xs
  | .obj kvs => (kvs.map Prod.fst).Nodup ∧ wfMems kvs

/-- `wfVal` element-wise. -/
def wfList : List J → Prop
  | [] => True
  | x :: xs => wfVal x ∧ wfList xs

/-- `wfVal` value-wise over object members. -/
def wfMems : List (List Char × J) → Prop
  | [] => True
  | (_, v) :: kvs => wfVal v ∧ wfMems kvs

end

mutual

/-- Every object node, at every depth and inside arrays too, lists its keys
in strictly ascending lexicographic order. -/
def keysSortedVal : J → Prop
  | .null => True
  | .bool _ => True
  | .num _ _ => True
  | .str _ => True
  | .arr xs => keysSortedList xs
  | .obj kvs => (kvs.map Prod.fst).Pairwise (· < ·) ∧ keysSortedMems kvs

/-- `keysSortedVal` element-wise. -/
def keysSortedList : List J → Prop
  | [] => True
  | x :: xs => keysSortedVal x ∧ keysSortedList xs

/-- `keysSortedVal` value-wise over object members. -/
def keysSortedMems : List (List Char × J) → Prop
  | [] => True
  | (_, v) :: kvs => keysSortedVal v ∧ keysSortedMems kvs

end

mutual

/-- Recursion budget the parser needs on the print of a value: one unit per
`parseVal`, `parseElems` or `parseMems` call. -/
def fuelVal : J → Nat
  | .null => 1
  | .bool _ => 1
  | .num _ _ => 1
  | .str _ => 1
  | .arr xs => 1 + fuelElems xs
  | .obj kvs => 1 + fuelMems kvs

/-- Budget for an element list. -/
def fuelElems : List J → Nat
  | [] => 1
  | x :: xs => 1 + fuelVal x + fuelElems xs

/-- Budget for a member list. -/
def fuelMems : List (List Char × J) → Nat
  | [] => 1
  | (_, v) :: kvs => 1 + fuelVal v + fuelMems kvs

end

/-- `serElems` without its leading indentation: the text from the first
element onward, which is where the parser stands after skipping
whitespace. -/
def serElemsHead (ind : List Char) (d : Nat) : List J → List Char
  | [] => []
  | [x] => serVal ind d x ++ ['\n']
  | x :: y :: xs => serVal ind d x ++ (',' :: '\n' :: serElems ind d (y :: xs))

/-- `serMems` without its leading indentation. -/
def serMemsHead (ind : List Char) (d : Nat) : List (List Char × J) → List Char
  | [] => []
  | [(k, v)] => '"' :: (escBody k ++ ('"' :: ':' :: ' ' :: (serVal ind d v ++ ['\n'])))
  | (k, v) :: kv :: kvs =>
    '"' :: (escBody k ++ ('"' :: ':' :: ' ' :: (serVal ind d v ++ (',' :: '\n' :: serMems ind d (kv :: kvs)))))

/-- Claim C3 as stated, at one line: the key is wrapped exactly when it does
not both begin and end with a double quote, and a line whose candidate both
begins and ends with one is left unchanged. -/
def c3ClaimAt (line : List Char) : Prop :=
  line.contains ':' = true →
    ((fixKeyLine line = wrapKey line ↔
        ¬ (['"'].isPrefixOf (keyOf line) = true ∧ ['"'].isSuffixOf (keyOf line) = true)) ∧
     ((['"'].isPrefixOf (keyOf line) = true ∧ ['"'].isSuffixOf (keyOf line) = true) →
        fixKeyLine line = line))

mutual

/-- Deep equality of decoded JSON values, the equality of the Go values they
represent: structural on scalars and element-wise on arrays; two objects are
deeply equal when they have the same number of keys and each member of
either finds, in the other, a member with the same key and a deeply equal
value. -/
inductive DeepEq : J → J → Prop where
  | null : DeepEq .null .null
  | bool (b : Bool) : DeepEq (.bool b) (.bool b)
  | num (m : Int) (e : Nat) : DeepEq (.num m e) (.num m e)
  | str (s : List Char) : DeepEq (.str s) (.str s)
  | arr (xs ys : List J) : DeepEqList xs ys → DeepEq (.arr xs) (.arr ys)
  | obj (kvs kvs' : List (List Char × J)) : kvs.length = kvs'.length →
      AllMatch kvs kvs' → AllMatch kvs' kvs → DeepEq (.obj kvs) (.obj kvs')

/-- Element-wise deep equality of two equally long lists. -/
inductive DeepEqList : List J → List J → Prop where
  | nil : DeepEqList [] []
  | cons (x y : J) (xs ys : List J) :
      DeepEq x y → DeepEqList xs ys → DeepEqList (x :: xs) (y :: ys)

/-- The member list holds the key with a value deeply equal to `v`. -/
inductive HasKeyDeep : List (List Char × J) → List Char → J → Prop where
  | head (k : List Char) (v v' : J) (rest : List (List Char × J)) :
      DeepEq v v' → HasKeyDeep ((k, v') :: rest) k v
  | tail (p : List Char × J) (rest : List (List Char × J)) (k : List Char) (v : J) :
      HasKeyDeep rest k v → HasKeyDeep (p :: rest) k v

/-- Every member of the first list finds its key, with a deeply equal value,
in the second. -/
inductive AllMatch : List (List Char × J) → List (List Char × J) → Prop where
  | nil (kvs' : List (List Char × J)) : AllMatch [] kvs'
  | cons (k : List Char) (v : J) (rest kvs' : List (List Char × J)) :
      HasKeyDeep kvs' k v → AllMatch rest kvs' → AllMatch ((k, v) :: rest) kvs'

end

/-- The exact auto-correct scenario input of the specification,
`\x7bname:"John","age":30,\x7d`. -/
def txC4 : List Char := "\x7bname:\"John\",\"age\":30,\x7d".toList

/-- A line whose key candidate begins with a double quote but does not end
with one. -/
def txC3cex : List Char := "\"a: 1".toList

/-- A line with a plain unquoted key candidate. -/
def txC3wit : List Char := "a: 1".toList

/-- The text of an empty object. -/
def txEmptyObj : List Char := "\x7b\x7d".toList

/-- The text of the null document. -/
def txNull : List Char := "null".toList

/-- A small document with unsorted keys and nesting, used by witnesses. -/
def txNested : List Char := "\x7b\"b\":\x7b\"d\":1,\"c\":[2.50,\x7b\"f\":3,\"e\":4\x7d]\x7d,\"a\":true\x7d".toList

/-- A two-key document with unsorted keys. -/
def txPair : List Char := "\x7b\"b\":1,\"a\":2\x7d".toList

/-- The input does not begin with a decimal digit. -/
def headNotDigit : List Char → Prop
  | [] => True
  | c :: _ => c.isDigit = false

/-- The input cannot extend a number literal: it does not begin with a
digit, a decimal point or an exponent marker. -/
def numStop : List Char → Prop
  | [] => True
  | c :: _ => c.isDigit = false ∧ c ≠ '.' ∧ c ≠ 'e' ∧ c ≠ 'E'

/-- The input does not begin with insignificant whitespace. -/
def headNotWs : List Char → Prop
  | [] => True
  | c :: _ => isWsChar c = false

theorem sjkMems_orderedInsert (k : List Char) (v : J) :
    ∀ l, sjkMems (List.orderedInsert keyLe (k, v) l) =
      List.orderedInsert keyLe (k, sortJSONKeys v) (sjkMems l)
  | [] => rfl
  | (k', v') :: l => by
    by_cases h : keyLe (k, v) (k', v')
    · have h' : keyLe (k, sortJSONKeys v) (k', sortJSONKeys v') := h
      simp only [List.orderedInsert, sjkMems, if_pos h, if_pos h']
    · have h' : ¬ keyLe (k, sortJSONKeys v) (k', sortJSONKeys v') := h
      simp only [List.orderedInsert, sjkMems, if_neg h, if_neg h']
      rw [sjkMems_orderedInsert k v l]

theorem sjkMems_isort_comm :
    ∀ l, sjkMems (List.insertionSort keyLe l) = List.insertionSort keyLe (sjkMems l)
  | [] => rfl
  | (k, v) :: l => by
    simp only [List.insertionSort, sjkMems]
    rw [sjkMems_orderedInsert, sjkMems_isort_comm l]

theorem isort_keyLe_idem (l : List (List Char × J)) :
    List.insertionSort keyLe (List.insertionSort keyLe l) = List.insertionSort keyLe l :=
  List.Sorted.insertionSort_eq (List.sorted_insertionSort keyLe l)

mutual

theorem sjk_idem : ∀ v, sortJSONKeys (sortJSONKeys v) = sortJSONKeys v
  | .null => rfl
  | .bool _ => rfl
  | .num _ _ => rfl
  | .str _ => rfl
  | .arr xs => by
    simp only [sortJSONKeys]
    rw [sjkList_idem xs]
  | .obj kvs => by
    simp only [sortJSONKeys]
    rw [sjkMems_isort_comm, sjkMems_sjkMems kvs, isort_keyLe_idem]

theorem sjkList_idem : ∀ xs, sjkList (sjkList xs) = sjkList xs
  | [] => rfl
  | x :: xs => by
    simp only [sjkList]
    rw [sjk_idem x, sjkList_idem xs]

theorem sjkMems_sjkMems : ∀ kvs, sjkMems (sjkMems kvs) = sjkMems kvs
  | [] => rfl
  | (k, v) :: kvs => by
    simp only [sjkMems]
    rw [sjk_idem v, sjkMems_sjkMems kvs]

end

theorem wfList_iff : ∀ xs, wfList xs ↔ ∀ x ∈ xs, wfVal x
  | [] => by simp [wfList]
  | x :: xs => by simp [wfList, wfList_iff xs]

theorem wfMems_iff : ∀ kvs, wfMems kvs ↔ ∀ kv ∈ kvs, wfVal kv.2
  | [] => by simp [wfMems]
  | (k, v) :: kvs => by
    simp only [wfMems, wfMems_iff kvs, List.mem_cons]
    constructor
    · rintro ⟨h1, h2⟩ kv hkv
      rcases hkv with h | h
      · rw [h]
        exact h1
      · exact h2 kv h
    · intro h
      exact ⟨h (k, v) (Or.inl rfl), fun kv hkv => h kv (Or.inr hkv)⟩

theorem keysSortedList_iff : ∀ xs, keysSortedList xs ↔ ∀ x ∈ xs, keysSortedVal x
  | [] => by simp [keysSortedList]
  | x :: xs => by simp [keysSortedList, keysSortedList_iff xs]

theorem keysSortedMems_iff : ∀ kvs, keysSortedMems kvs ↔ ∀ kv ∈ kvs, keysSortedVal kv.2
  | [] => by simp [keysSortedMems]
  | (k, v) :: kvs => by
    simp only [keysSortedMems, keysSortedMems_iff kvs, List.mem_cons]
    constructor
    · rintro ⟨h1, h2⟩ kv hkv
      rcases hkv with h | h
      · rw [h]
        exact h1
      · exact h2 kv h
    · intro h
      exact ⟨h (k, v) (Or.inl rfl), fun kv hkv => h kv (Or.inr hkv)⟩

theorem sjkMems_eq_map :
    ∀ kvs, sjkMems kvs = kvs.map (fun kv => (kv.1, sortJSONKeys kv.2))
  | [] => rfl
  | (k, v) :: kvs => by simp [sjkMems, sjkMems_eq_map kvs]

theorem sjkMems_keys (kvs : List (List Char × J)) :
    (sjkMems kvs).map Prod.fst = kvs.map Prod.fst := by
  rw [sjkMems_eq_map, List.map_map]
  rfl

mutual

theorem sjk_good : ∀ v, wfVal v → wfVal (sortJSONKeys v) ∧ keysSortedVal (sortJSONKeys v)
  | .null, _ => ⟨trivial, trivial⟩
  | .bool _, _ => ⟨trivial, trivial⟩
  | .num m e, h => ⟨h, trivial⟩
  | .str _, _ => ⟨trivial, trivial⟩
  | .arr xs, h => by
    have := sjkList_good xs h
    simp only [sortJSONKeys]
    exact ⟨this.1, this.2⟩
  | .obj kvs, h => by
    obtain ⟨hnd, hwf⟩ := h
    have hm := sjkMems_good kvs hwf
    have hperm : (List.insertionSort keyLe (sjkMems kvs)).Perm (sjkMems kvs) :=
      List.perm_insertionSort keyLe (sjkMems kvs)
    have hkeysperm :
        ((List.insertionSort keyLe (sjkMems kvs)).map Prod.fst).Perm (kvs.map Prod.fst) := by
      rw [← sjkMems_keys kvs]
      exact hperm.map Prod.fst
    have hnd' : ((List.insertionSort keyLe (sjkMems kvs)).map Prod.fst).Nodup :=
      hkeysperm.nodup_iff.mpr hnd
    have hsorted : List.Pairwise keyLe (List.insertionSort keyLe (sjkMems kvs)) :=
      List.sorted_insertionSort keyLe (sjkMems kvs)
    have hle : ((List.insertionSort keyLe (sjkMems kvs)).map Prod.fst).Pairwise (· ≤ ·) :=
      List.pairwise_map.mpr (hsorted.imp (fun hab => hab))
    have hlt : ((List.insertionSort keyLe (sjkMems kvs)).map Prod.fst).Pairwise (· < ·) :=
      (hle.and hnd').imp (fun hab => lt_of_le_of_ne hab.1 hab.2)
    constructor
    · exact ⟨hnd', (wfMems_iff _).mpr fun kv hkv =>
        (wfMems_iff _).mp hm.1 kv (hperm.mem_iff.mp hkv)⟩
    · exact ⟨hlt, (keysSortedMems_iff _).mpr fun kv hkv =>
        (keysSortedMems_iff _).mp hm.2 kv (hperm.mem_iff.mp hkv)⟩

theorem sjkList_good : ∀ xs, wfList xs → wfList (sjkList xs) ∧ keysSortedList (sjkList xs)
  | [], _ => ⟨trivial, trivial⟩
  | x :: xs, h => by
    have h1 := sjk_good x h.1
    have h2 := sjkList_good xs h.2
    exact ⟨⟨h1.1, h2.1⟩, ⟨h1.2, h2.2⟩⟩

theorem sjkMems_good : ∀ kvs, wfMems kvs → wfMems (sjkMems kvs) ∧ keysSortedMems (sjkMems kvs)
  | [], _ => ⟨trivial, trivial⟩
  | (k, v) :: kvs, h => by
    have h1 := sjk_good v h.1
    have h2 := sjkMems_good kvs h.2
    exact ⟨⟨h1.1, h2.1⟩, ⟨h1.2, h2.2⟩⟩

end

mutual

theorem sjk_eq_self : ∀ v, keysSortedVal v → sortJSONKeys v = v
  | .null, _ => rfl
  | .bool _, _ => rfl
  | .num _ _, _ => rfl
  | .str _, _ => rfl
  | .arr xs, h => by
    simp only [sortJSONKeys]
    rw [sjkList_eq_self xs h]
  | .obj kvs, h => by
    simp only [sortJSONKeys]
    rw [sjkMems_eq_self kvs h.2]
    have hle0 : (kvs.map Prod.fst).Pairwise (· ≤ ·) := h.1.imp (fun hab => le_of_lt hab)
    have hle : List.Sorted keyLe kvs := List.Pairwise.of_map Prod.fst (fun _ _ h => h) hle0
    rw [List.Sorted.insertionSort_eq hle]

theorem sjkList_eq_self : ∀ xs, keysSortedList xs → sjkList xs = xs
  | [], _ => rfl
  | x :: xs, h => by
    simp only [sjkList]
    rw [sjk_eq_self x h.1, sjkList_eq_self xs h.2]

theorem sjkMems_eq_self : ∀ kvs, keysSortedMems kvs → sjkMems kvs = kvs
  | [], _ => rfl
  | (k, v) :: kvs, h => by
    simp only [sjkMems]
    rw [sjk_eq_self v h.1, sjkMems_eq_self kvs h.2]

end

theorem digitChar_toNat (d : Nat) (h : d < 10) : (Char.ofNat (48 + d)).toNat = 48 + d := by
  interval_cases d <;> decide

theorem digitChar_isDigit (d : Nat) (h : d < 10) : (Char.ofNat (48 + d)).isDigit = true := by
  interval_cases d <;> decide

theorem digitChar_digitVal (d : Nat) (h : d < 10) : digitVal (Char.ofNat (48 + d)) = d := by
  unfold digitVal
  rw [digitChar_toNat d h]
  omega

theorem digitChar_ne_zero (d : Nat) (h : d < 10) (h0 : d ≠ 0) : Char.ofNat (48 + d) ≠ '0' := by
  interval_cases d
  · exact absurd rfl h0
  all_goals decide

theorem natDigitChars_digits (n : Nat) : ∀ c ∈ natDigitChars n, c.isDigit = true := by
  intro c hc
  unfold natDigitChars at hc
  rw [List.mem_map] at hc
  obtain ⟨d, hd, rfl⟩ := hc
  rw [List.mem_reverse] at hd
  exact digitChar_isDigit d (Nat.digits_lt_base (by omega) hd)

theorem natDigitChars_map_digitVal (n : Nat) :
    (natDigitChars n).map digitVal = (Nat.digits 10 n).reverse := by
  unfold natDigitChars
  rw [List.map_map]
  have : ∀ d ∈ (Nat.digits 10 n).reverse, (digitVal ∘ fun d => Char.ofNat (48 + d)) d = id d := by
    intro d hd
    rw [List.mem_reverse] at hd
    exact digitChar_digitVal d (Nat.digits_lt_base (by omega) hd)
  rw [List.map_congr_left this, List.map_id]

theorem foldr_eq_ofDigits : ∀ l : List Nat,
    List.foldr (fun d a => 10 * a + d) 0 l = Nat.ofDigits 10 l
  | [] => by simp [Nat.ofDigits]
  | d :: l => by
    simp only [List.foldr_cons, foldr_eq_ofDigits l, Nat.ofDigits_cons]
    omega

theorem digitsToNat_reverse_digits (n : Nat) :
    digitsToNat ((Nat.digits 10 n).reverse) = n := by
  unfold digitsToNat
  rw [List.foldl_reverse, foldr_eq_ofDigits, Nat.ofDigits_digits]

theorem digitsToNat_natDigitChars (n : Nat) :
    digitsToNat ((natDigitChars n).map digitVal) = n := by
  rw [natDigitChars_map_digitVal, digitsToNat_reverse_digits]

theorem natDigitChars_ne_nil (n : Nat) (h : n ≠ 0) : natDigitChars n ≠ [] := by
  unfold natDigitChars
  simp [Nat.digits_ne_nil_iff_ne_zero, h]

theorem natDigitChars_head (n : Nat) (h : n ≠ 0) :
    ∀ c t, natDigitChars n = c :: t → c.isDigit = true ∧ c ≠ '0' := by
  intro c t hct
  refine ⟨natDigitChars_digits n c (by rw [hct]; exact List.mem_cons_self _ _), ?_⟩
  unfold natDigitChars at hct
  rcases hrev : (Nat.digits 10 n).reverse with _ | ⟨d, ds⟩
  · rw [hrev] at hct
    simp at hct
  · rw [hrev] at hct
    simp only [List.map_cons, List.cons.injEq] at hct
    have hd10 : d < 10 := by
      have hmem : d ∈ Nat.digits 10 n := by
        rw [← List.mem_reverse, hrev]
        exact List.mem_cons_self _ _
      exact Nat.digits_lt_base (by omega) hmem
    have hne : Nat.digits 10 n ≠ [] := Nat.digits_ne_nil_iff_ne_zero.mpr h
    have hdlast : d ≠ 0 := by
      have h1 : (Nat.digits 10 n).getLast? = some d := by
        rw [← List.head?_reverse, hrev]
        rfl
      rw [List.getLast?_eq_getLast _ hne] at h1
      have h3 : (Nat.digits 10 n).getLast hne = d := Option.some.inj h1
      rw [← h3]
      exact Nat.getLast_digit_ne_zero 10 h
    rw [← hct.1]
    exact digitChar_ne_zero d hd10 hdlast

theorem readDigits_digits_append :
    ∀ ds rest, (∀ c ∈ ds, c.isDigit = true) → headNotDigit rest →
      readDigits (ds ++ rest) = (ds.map digitVal, rest)
  | [], [], _, _ => rfl
  | [], c :: rest, _, hr => by
    simp only [List.nil_append, readDigits, List.map_nil]
    rw [if_neg]
    rw [show headNotDigit (c :: rest) = (c.isDigit = false) from rfl] at hr
    simp [hr]
  | d :: ds, rest, hds, hr => by
    have hrec : readDigits (ds.append rest) = (ds.map digitVal, rest) :=
      readDigits_digits_append ds rest (fun c hc => hds c (List.mem_cons_of_mem _ hc)) hr
    simp only [List.cons_append, readDigits, List.map_cons]
    rw [if_pos (hds d (List.mem_cons_self _ _)), hrec]

theorem normNum_stable : ∀ e n, n % 10 ≠ 0 → normNum n e = (n, e)
  | 0, n, _ => rfl
  | e + 1, n, h => by
    have hn : n ≠ 0 := by
      intro h0
      rw [h0] at h
      exact h rfl
    simp only [normNum, if_neg hn, if_neg h]

theorem digitsToNat_zero_cons (l : List Nat) : digitsToNat (0 :: l) = digitsToNat l := rfl

theorem digitsToNat_replicate_zero :
    ∀ k (l : List Nat), digitsToNat (List.replicate k 0 ++ l) = digitsToNat l
  | 0, l => rfl
  | k + 1, l => by
    simp only [List.replicate, List.cons_append]
    rw [digitsToNat_zero_cons, digitsToNat_replicate_zero k l]

theorem numStop_headNotDigit : ∀ t, numStop t → headNotDigit t
  | [], _ => trivial
  | _ :: _, h => h.1

theorem parseExpPart_noexp (ip fp : List Nat) (rest : List Char) (h : numStop rest) :
    parseExpPart ip fp rest = some (mkNum ip fp 0, rest) := by
  rw [parseExpPart.eq_def]
  split
  all_goals first
    | rfl
    | simp [numStop] at h

theorem parseFracExp_nofrac (ip : List Nat) (rest : List Char) (h : numStop rest) :
    parseFracExp ip rest = some (mkNum ip [] 0, rest) := by
  rw [parseFracExp.eq_def]
  split
  · simp [numStop] at h
  · exact parseExpPart_noexp ip [] rest h

theorem mkNum_int (ds : List Nat) : mkNum ds [] 0 = (digitsToNat ds, 0) := by
  unfold mkNum
  rw [if_pos (by simp)]
  simp

theorem mkNum_fp (ds fp : List Nat) (h : fp ≠ []) :
    mkNum ds fp 0 = normNum (digitsToNat (ds ++ fp)) fp.length := by
  unfold mkNum
  have hlen : 0 < fp.length := List.length_pos.mpr h
  rw [if_neg (by omega)]
  congr 1
  omega

theorem serNumMag_head (n e : Nat) :
    ∃ c t, serNumMag n e = c :: t ∧ c.isDigit = true := by
  unfold serNumMag
  by_cases he : e = 0
  · rw [if_pos he]
    by_cases hn : n = 0
    · rw [if_pos hn]
      exact ⟨'0', [], rfl, by decide⟩
    · rw [if_neg hn]
      rcases h' : natDigitChars n with _ | ⟨c, t⟩
      · exact absurd h' (natDigitChars_ne_nil n hn)
      · exact ⟨c, t, rfl, (natDigitChars_head n hn c t h').1⟩
  · rw [if_neg he]
    by_cases hlen : e < (natDigitChars n).length
    · rw [if_pos hlen]
      rcases h' : (natDigitChars n).take ((natDigitChars n).length - e) with _ | ⟨c, t⟩
      · exfalso
        have : ((natDigitChars n).take ((natDigitChars n).length - e)).length =
            (natDigitChars n).length - e := by
          rw [List.length_take]
          omega
        rw [h'] at this
        simp at this
        omega
      · refine ⟨c, t ++ '.' :: (natDigitChars n).drop ((natDigitChars n).length - e), ?_, ?_⟩
        · rfl
        · have hc : c ∈ natDigitChars n := by
            have : c ∈ (natDigitChars n).take ((natDigitChars n).length - e) := by
              rw [h']
              exact List.mem_cons_self _ _
            exact List.mem_of_mem_take this
          exact natDigitChars_digits n c hc
    · rw [if_neg hlen]
      exact ⟨'0', '.' :: (List.replicate (e - (natDigitChars n).length) '0' ++ natDigitChars n),
        rfl, by decide⟩

theorem parseNumMag_ser (n e : Nat) (hc : e = 0 ∨ n % 10 ≠ 0) (rest : List Char)
    (hrest : numStop rest) :
    parseNumMag (serNumMag n e ++ rest) = some ((n, e), rest) := by
  by_cases he : e = 0
  · subst he
    by_cases hn : n = 0
    · subst hn
      show parseNumMag ('0' :: rest) = some ((0, 0), rest)
      show parseFracExp [0] rest = some ((0, 0), rest)
      rw [parseFracExp_nofrac [0] rest hrest, mkNum_int]
      rfl
    · obtain ⟨c, t, hct⟩ : ∃ c t, natDigitChars n = c :: t := by
        rcases h' : natDigitChars n with _ | ⟨c, t⟩
        · exact absurd h' (natDigitChars_ne_nil n hn)
        · exact ⟨c, t, rfl⟩
      have hcd := natDigitChars_head n hn c t hct
      have htd : ∀ x ∈ t, x.isDigit = true := fun x hx =>
        natDigitChars_digits n x (by rw [hct]; exact List.mem_cons_of_mem _ hx)
      rw [show serNumMag n 0 = natDigitChars n from by rw [serNumMag, if_pos rfl, if_neg hn]]
      rw [hct]
      rw [parseNumMag.eq_def]
      split
      · rename_i r heq
        rw [List.cons_append, List.cons.injEq] at heq
        exact absurd heq.1 hcd.2
      · rename_i c' r heq
        rw [List.cons_append, List.cons.injEq] at heq
        obtain ⟨h1, h2⟩ := heq
        subst h1
        subst h2
        rw [if_pos hcd.1]
        have hrd : readDigits (t ++ rest) = (t.map digitVal, rest) :=
          readDigits_digits_append t rest htd (numStop_headNotDigit rest hrest)
        rw [hrd]
        show parseFracExp (digitVal c :: t.map digitVal) rest = _
        rw [parseFracExp_nofrac _ rest hrest, mkNum_int]
        have : digitsToNat (digitVal c :: t.map digitVal) = n := by
          have h1 : (c :: t).map digitVal = digitVal c :: t.map digitVal := rfl
          rw [← h1, ← hct, digitsToNat_natDigitChars]
        rw [this]
      · rename_i heq
        rw [List.cons_append] at heq
        exact absurd heq (by simp)
  · have hn10 : n % 10 ≠ 0 := hc.resolve_left he
    have hn : n ≠ 0 := fun h0 => hn10 (by rw [h0])
    have hdall := natDigitChars_digits n
    by_cases hlen : e < (natDigitChars n).length
    · rw [show serNumMag n e =
          (natDigitChars n).take ((natDigitChars n).length - e) ++
            '.' :: (natDigitChars n).drop ((natDigitChars n).length - e) from by
        rw [serNumMag, if_neg he, if_pos hlen]]
      obtain ⟨c, t, hct⟩ : ∃ c t,
          (natDigitChars n).take ((natDigitChars n).length - e) = c :: t := by
        rcases h' : (natDigitChars n).take ((natDigitChars n).length - e) with _ | ⟨c, t⟩
        · exfalso
          have h2 : ((natDigitChars n).take ((natDigitChars n).length - e)).length =
              (natDigitChars n).length - e := by
            rw [List.length_take]
            omega
          rw [h'] at h2
          simp at h2
          omega
        · exact ⟨c, t, rfl⟩
      have hmemtake : ∀ x ∈ c :: t, x.isDigit = true := by
        intro x hx
        have hx' : x ∈ (natDigitChars n).take ((natDigitChars n).length - e) := by
          rw [hct]
          exact hx
        exact hdall x (List.mem_of_mem_take hx')
      have hcd : c.isDigit = true := hmemtake c (List.mem_cons_self _ _)
      have htd : ∀ x ∈ t, x.isDigit = true := fun x hx => hmemtake x (List.mem_cons_of_mem _ hx)
      have hc0 : c ≠ '0' := by
        obtain ⟨c0, t0, hct0⟩ : ∃ c0 t0, natDigitChars n = c0 :: t0 := by
          rcases h' : natDigitChars n with _ | ⟨c0, t0⟩
          · exact absurd h' (natDigitChars_ne_nil n hn)
          · exact ⟨c0, t0, rfl⟩
        have : c = c0 := by
          rw [hct0] at hct
          obtain ⟨k, hk⟩ : ∃ k, (natDigitChars n).length - e = k + 1 :=
            ⟨(natDigitChars n).length - e - 1, by omega⟩
          rw [hct0] at hk
          rw [hk, List.take_succ_cons, List.cons.injEq] at hct
          exact hct.1.symm
        rw [this]
        exact (natDigitChars_head n hn c0 t0 hct0).2
      rw [hct]
      simp only [List.cons_append, List.append_assoc]
      rw [parseNumMag.eq_def]
      split
      · rename_i r heq
        rw [List.cons.injEq] at heq
        exact absurd heq.1 hc0
      · rename_i c' r heq
        rw [List.cons.injEq] at heq
        obtain ⟨h1, h2⟩ := heq
        subst h1
        subst h2
        rw [if_pos hcd]
        have hrd : readDigits (t ++ ('.' ::
            ((natDigitChars n).drop ((natDigitChars n).length - e) ++ rest))) =
            (t.map digitVal, '.' ::
              ((natDigitChars n).drop ((natDigitChars n).length - e) ++ rest)) :=
          readDigits_digits_append t _ htd (by exact rfl)
        rw [hrd]
        show parseFracExp (digitVal c :: t.map digitVal) _ = _
        rw [parseFracExp.eq_def]
        split
        · rename_i r2 heq2
          rw [List.cons.injEq] at heq2
          obtain ⟨h1, h2⟩ := heq2
          subst h2
          have hdropd : ∀ x ∈ (natDigitChars n).drop ((natDigitChars n).length - e),
              x.isDigit = true := fun x hx => hdall x (List.mem_of_mem_drop hx)
          have hrd2 : readDigits ((natDigitChars n).drop ((natDigitChars n).length - e) ++ rest) =
              (((natDigitChars n).drop ((natDigitChars n).length - e)).map digitVal, rest) :=
            readDigits_digits_append _ rest hdropd (numStop_headNotDigit rest hrest)
          rw [hrd2]
          obtain ⟨f0, fs, hf⟩ : ∃ f0 fs,
              ((natDigitChars n).drop ((natDigitChars n).length - e)).map digitVal = f0 :: fs := by
            rcases h' : ((natDigitChars n).drop ((natDigitChars n).length - e)).map digitVal with
              _ | ⟨f0, fs⟩
            · exfalso
              have h2 := congrArg List.length h'
              simp only [List.length_map, List.length_drop, List.length_nil] at h2
              omega
            · exact ⟨f0, fs, rfl⟩
          rw [hf]
          rw [show (match (f0 :: fs, rest) with
              | ([], _) => none
              | (fp, r') => parseExpPart (digitVal c :: t.map digitVal) fp r') =
              parseExpPart (digitVal c :: t.map digitVal) (f0 :: fs) rest from rfl]
          rw [parseExpPart_noexp _ _ rest hrest, ← hf, mkNum_fp _ _ (by rw [hf]; simp)]
          have hbase : digitsToNat ((digitVal c :: t.map digitVal) ++
              ((natDigitChars n).drop ((natDigitChars n).length - e)).map digitVal) = n := by
            have h1 : (digitVal c :: t.map digitVal) = ((c :: t).map digitVal) := rfl
            rw [h1, ← List.map_append, ← hct, List.take_append_drop,
              digitsToNat_natDigitChars]
          rw [hbase]
          have hlene : (((natDigitChars n).drop ((natDigitChars n).length - e)).map
              digitVal).length = e := by
            simp only [List.length_map, List.length_drop]
            omega
          rw [hlene, normNum_stable e n hn10]
        · rename_i hne
          exact absurd rfl (hne ((natDigitChars n).drop ((natDigitChars n).length - e) ++ rest))
      · rename_i heq
        exact absurd heq (by simp)
    · rw [show serNumMag n e = '0' :: '.' ::
          (List.replicate (e - (natDigitChars n).length) '0' ++ natDigitChars n) from by
        rw [serNumMag, if_neg he, if_neg hlen]]
      rw [List.cons_append, List.cons_append]
      show parseFracExp [0] ('.' ::
        ((List.replicate (e - (natDigitChars n).length) '0' ++ natDigitChars n) ++ rest)) = _
      rw [parseFracExp.eq_def]
      split
      · rename_i r2 heq2
        rw [List.cons.injEq] at heq2
        obtain ⟨h1, h2⟩ := heq2
        subst h2
        have hdig : ∀ x ∈ List.replicate (e - (natDigitChars n).length) '0' ++ natDigitChars n,
            x.isDigit = true := by
          intro x hx
          rcases List.mem_append.mp hx with h1 | h1
          · rw [List.eq_of_mem_replicate h1]
            decide
          · exact natDigitChars_digits n x h1
        have hrd : readDigits ((List.replicate (e - (natDigitChars n).length) '0' ++
            natDigitChars n) ++ rest) =
            ((List.replicate (e - (natDigitChars n).length) '0' ++ natDigitChars n).map digitVal,
              rest) :=
          readDigits_digits_append _ rest hdig (numStop_headNotDigit rest hrest)
        rw [hrd]
        obtain ⟨f0, fs, hf⟩ : ∃ f0 fs,
            (List.replicate (e - (natDigitChars n).length) '0' ++ natDigitChars n).map digitVal =
              f0 :: fs := by
          rcases h' : (List.replicate (e - (natDigitChars n).length) '0' ++
              natDigitChars n).map digitVal with _ | ⟨f0, fs⟩
          · exfalso
            have h2 := congrArg List.length h'
            simp only [List.length_map, List.length_append, List.length_replicate,
              List.length_nil] at h2
            have h3 : natDigitChars n ≠ [] := natDigitChars_ne_nil n hn
            have h4 : 0 < (natDigitChars n).length := List.length_pos.mpr h3
            omega
          · exact ⟨f0, fs, rfl⟩
        rw [hf]
        rw [show (match (f0 :: fs, rest) with
            | ([], _) => none
            | (fp, r') => parseExpPart [0] fp r') =
            parseExpPart [0] (f0 :: fs) rest from rfl]
        rw [parseExpPart_noexp _ _ rest hrest, ← hf, mkNum_fp _ _ (by rw [hf]; simp)]
        have hbase : digitsToNat ([0] ++ (List.replicate (e - (natDigitChars n).length) '0' ++
            natDigitChars n).map digitVal) = n := by
          rw [List.map_append, List.map_replicate]
          show digitsToNat (0 :: (List.replicate _ 0 ++ (natDigitChars n).map digitVal)) = n
          rw [digitsToNat_zero_cons, digitsToNat_replicate_zero, digitsToNat_natDigitChars]
        rw [hbase]
        have hlene : ((List.replicate (e - (natDigitChars n).length) '0' ++
            natDigitChars n).map digitVal).length = e := by
          simp only [List.length_map, List.length_append, List.length_replicate]
          omega
        rw [hlene, normNum_stable e n hn10]
      · rename_i hne
        exact absurd rfl (hne ((List.replicate (e - (natDigitChars n).length) '0' ++
          natDigitChars n) ++ rest))

theorem serNum_head (m : Int) (e : Nat) :
    ∃ c t, serNum m e = c :: t ∧ (c.isDigit = true ∨ c = '-') := by
  unfold serNum
  obtain ⟨c, t, hct, hcd⟩ := serNumMag_head m.natAbs e
  by_cases hm : m < 0
  · rw [if_pos hm]
    exact ⟨'-', serNumMag m.natAbs e, rfl, Or.inr rfl⟩
  · rw [if_neg hm]
    exact ⟨c, t, hct, Or.inl hcd⟩

theorem parseNumTok_ser (m : Int) (e : Nat) (hc : e = 0 ∨ m.natAbs % 10 ≠ 0)
    (rest : List Char) (hrest : numStop rest) :
    parseNumTok (serNum m e ++ rest) = some (J.num m e, rest) := by
  unfold serNum
  by_cases hm : m < 0
  · rw [if_pos hm, List.cons_append]
    show (parseNumMag (serNumMag m.natAbs e ++ rest)).map
      (fun p => (J.num (-(p.1.1 : Int)) p.1.2, p.2)) = _
    rw [parseNumMag_ser m.natAbs e hc rest hrest]
    show some (J.num (-(m.natAbs : Int)) e, rest) = some (J.num m e, rest)
    have hmn : -((m.natAbs : Int)) = m := by omega
    rw [hmn]
  · rw [if_neg hm]
    obtain ⟨c, t, hct, hcd⟩ := serNumMag_head m.natAbs e
    rw [hct, List.cons_append, parseNumTok.eq_def]
    split
    · rename_i r heq
      rw [List.cons.injEq] at heq
      rw [heq.1] at hcd
      exact absurd hcd (by decide)
    · rw [← List.cons_append, ← hct, parseNumMag_ser m.natAbs e hc rest hrest]
      show some (J.num ((m.natAbs : Int)) e, rest) = some (J.num m e, rest)
      have hmn : ((m.natAbs : Int)) = m := by omega
      rw [hmn]

theorem escBody_cons (c : Char) (s : List Char) : escBody (c :: s) = escChar c ++ escBody s := rfl

theorem hexVal_hexDigitChar (d : Nat) (h : d < 16) : hexVal (hexDigitChar d) = some d := by
  interval_cases d <;> decide

theorem parseStrBodyF_esc : ∀ (s : List Char) (fuel : Nat) (rest : List Char),
    s.length + 1 ≤ fuel →
    parseStrBodyF fuel (escBody s ++ ('"' :: rest)) = some (s, rest)
  | [], fuel, rest, hf => by
    obtain ⟨f', rfl⟩ : ∃ f', fuel = f' + 1 := ⟨fuel - 1, by omega⟩
    show parseStrBodyF (f' + 1) ('"' :: rest) = some ([], rest)
    rfl
  | c :: s, fuel, rest, hf => by
    obtain ⟨fuel', rfl⟩ : ∃ f', fuel = f' + 1 := ⟨fuel - 1, by omega⟩
    have hf' : s.length + 1 ≤ fuel' := by
      rw [List.length_cons] at hf
      omega
    have ih := parseStrBodyF_esc s fuel' rest hf'
    rw [escBody_cons, List.append_assoc]
    by_cases h1 : c = '"'
    · subst h1
      show (parseStrBodyF fuel' (escBody s ++ ('"' :: rest))).map
        (fun p => ('"' :: p.1, p.2)) = some ('"' :: s, rest)
      rw [ih]
      rfl
    by_cases h2 : c = '\\'
    · subst h2
      show (parseStrBodyF fuel' (escBody s ++ ('"' :: rest))).map
        (fun p => ('\\' :: p.1, p.2)) = some ('\\' :: s, rest)
      rw [ih]
      rfl
    by_cases h3 : c = '<' ∨ c = '>' ∨ c = '&'
    · rcases h3 with h3 | h3 | h3
      all_goals subst h3
      · show (parseStrBodyF fuel' (escBody s ++ ('"' :: rest))).map
          (fun p => ('<' :: p.1, p.2)) = some ('<' :: s, rest)
        rw [ih]
        rfl
      · show (parseStrBodyF fuel' (escBody s ++ ('"' :: rest))).map
          (fun p => ('>' :: p.1, p.2)) = some ('>' :: s, rest)
        rw [ih]
        rfl
      · show (parseStrBodyF fuel' (escBody s ++ ('"' :: rest))).map
          (fun p => ('&' :: p.1, p.2)) = some ('&' :: s, rest)
        rw [ih]
        rfl
    by_cases h4 : c.toNat < 0x20
    · by_cases h5 : c = '\n'
      · subst h5
        show (parseStrBodyF fuel' (escBody s ++ ('"' :: rest))).map
          (fun p => ('\n' :: p.1, p.2)) = some ('\n' :: s, rest)
        rw [ih]
        rfl
      by_cases h6 : c = '\r'
      · subst h6
        show (parseStrBodyF fuel' (escBody s ++ ('"' :: rest))).map
          (fun p => ('\r' :: p.1, p.2)) = some ('\r' :: s, rest)
        rw [ih]
        rfl
      by_cases h7 : c = '\t'
      · subst h7
        show (parseStrBodyF fuel' (escBody s ++ ('"' :: rest))).map
          (fun p => ('\t' :: p.1, p.2)) = some ('\t' :: s, rest)
        rw [ih]
        rfl
      · have hesc : escChar c = ['\\', 'u', '0', '0',
            hexDigitChar (c.toNat / 16), hexDigitChar (c.toNat % 16)] := by
          rw [escChar, if_neg h1, if_neg h2, if_neg h3, if_pos h4, if_neg h5, if_neg h6,
            if_neg h7]
        rw [hesc]
        show parseStrBodyF (fuel' + 1) ('\\' :: 'u' :: '0' :: '0' ::
          hexDigitChar (c.toNat / 16) :: hexDigitChar (c.toNat % 16) ::
          (escBody s ++ ('"' :: rest))) = some (c :: s, rest)
        have hh1 : hexVal (hexDigitChar (c.toNat / 16)) = some (c.toNat / 16) :=
          hexVal_hexDigitChar _ (by omega)
        have hh2 : hexVal (hexDigitChar (c.toNat % 16)) = some (c.toNat % 16) :=
          hexVal_hexDigitChar _ (by omega)
        have hhex : hex4 '0' '0' (hexDigitChar (c.toNat / 16)) (hexDigitChar (c.toNat % 16)) =
            some c.toNat := by
          rw [hex4.eq_def]
          rw [show hexVal '0' = some 0 from rfl, hh1, hh2]
          show some (4096 * 0 + 256 * 0 + 16 * (c.toNat / 16) + c.toNat % 16) = some c.toNat
          congr 1
          omega
        simp only [parseStrBodyF, hhex]
        rw [if_neg (by omega), if_neg (by omega), Char.ofNat_toNat, ih]
        rfl
    by_cases h8 : c.toNat = 0x2028 ∨ c.toNat = 0x2029
    · rcases h8 with ht | ht
      · have hc : c = '\u2028' := by
          rw [← Char.ofNat_toNat c, ht]
        subst hc
        show (parseStrBodyF fuel' (escBody s ++ ('"' :: rest))).map
          (fun p => ('\u2028' :: p.1, p.2)) = some ('\u2028' :: s, rest)
        rw [ih]
        rfl
      · have hc : c = '\u2029' := by
          rw [← Char.ofNat_toNat c, ht]
        subst hc
        show (parseStrBodyF fuel' (escBody s ++ ('"' :: rest))).map
          (fun p => ('\u2029' :: p.1, p.2)) = some ('\u2029' :: s, rest)
        rw [ih]
        rfl
    · have hesc : escChar c = [c] := by
        rw [escChar, if_neg h1, if_neg h2, if_neg h3, if_neg h4, if_neg h8]
      rw [hesc]
      show parseStrBodyF (fuel' + 1) (c :: (escBody s ++ ('"' :: rest))) = some (c :: s, rest)
      rw [parseStrBodyF.eq_def]
      split
      · rename_i heq
        rw [List.cons.injEq] at heq
        exact absurd heq.1 h1
      · rename_i heq
        rw [List.cons.injEq] at heq
        exact absurd heq.1 h2
      · rename_i heq
        rw [List.cons.injEq] at heq
        exact absurd heq.1 h2
      · rename_i heqf heq
        injection heqf with h7
        subst h7
        rw [List.cons.injEq] at heq
        obtain ⟨h5, h6⟩ := heq
        subst h5
        subst h6
        rw [if_neg h4, ih]
        rfl
      · rename_i hn4
        exact absurd rfl (hn4 fuel' c (escBody s ++ '"' :: rest) rfl)

theorem escChar_ne_nil (c : Char) : escChar c ≠ [] := by
  unfold escChar
  split_ifs <;> simp

theorem escBody_length : ∀ s : List Char, s.length ≤ (escBody s).length
  | [] => Nat.le_refl _
  | c :: s => by
    rw [escBody_cons, List.length_append, List.length_cons]
    have h1 : 1 ≤ (escChar c).length := List.length_pos.mpr (escChar_ne_nil c)
    have h2 := escBody_length s
    omega

theorem parseStrBody_esc (s rest : List Char) :
    parseStrBody (escBody s ++ ('"' :: rest)) = some (s, rest) := by
  unfold parseStrBody
  apply parseStrBodyF_esc
  have h1 := escBody_length s
  rw [List.length_append, List.length_cons]
  omega

theorem skipWs_ws_append : ∀ pre s : List Char, (∀ c ∈ pre, isWsChar c = true) →
    skipWs (pre ++ s) = skipWs s
  | [], s, _ => rfl
  | c :: pre, s, h => by
    rw [List.cons_append]
    show (if isWsChar c then skipWs (pre ++ s) else c :: (pre ++ s)) = skipWs s
    rw [if_pos (h c (List.mem_cons_self _ _))]
    exact skipWs_ws_append pre s (fun x hx => h x (List.mem_cons_of_mem _ hx))

theorem skipWs_not_ws : ∀ s, headNotWs s → skipWs s = s
  | [], _ => rfl
  | c :: s, h => by
    show (if isWsChar c then skipWs s else c :: s) = c :: s
    rw [if_neg]
    rw [show headNotWs (c :: s) = (isWsChar c = false) from rfl] at h
    simp [h]

theorem indentN_ws (ind : List Char) (h : ∀ c ∈ ind, isWsChar c = true) :
    ∀ d, ∀ c ∈ indentN ind d, isWsChar c = true := by
  intro d
  induction d with
  | zero => simp [indentN]
  | succ d ih =>
    intro c hc
    rw [indentN] at hc
    rcases List.mem_append.mp hc with h1 | h1
    · exact h c h1
    · exact ih c h1

theorem digit_head_props (c : Char) (h : c.isDigit = true) :
    isWsChar c = false ∧ c ≠ ']' ∧ c ≠ '\x7d' := by
  simp only [Char.isDigit] at h
  rw [Bool.and_eq_true, decide_eq_true_eq, decide_eq_true_eq] at h
  obtain ⟨h1, h2⟩ := h
  refine ⟨?_, ?_, ?_⟩
  · have hsp : c ≠ ' ' := by
      intro he
      subst he
      simp at h1
    have hta : c ≠ '\t' := by
      intro he
      subst he
      simp at h1
    have hnl : c ≠ '\n' := by
      intro he
      subst he
      simp at h1
    have hcr : c ≠ '\r' := by
      intro he
      subst he
      simp at h1
    simp only [isWsChar, Bool.or_eq_false_iff, beq_eq_false_iff_ne, ne_eq]
    exact ⟨⟨⟨hsp, hta⟩, hnl⟩, hcr⟩
  · intro he
    subst he
    simp at h1 h2
  · intro he
    subst he
    simp at h1 h2

theorem serNum_head_props (m : Int) (e : Nat) :
    ∃ c t, serNum m e = c :: t ∧ isWsChar c = false ∧ c ≠ ']' ∧ c ≠ '\x7d' := by
  obtain ⟨c, t, hct, hcd⟩ := serNum_head m e
  refine ⟨c, t, hct, ?_⟩
  rcases hcd with hd | hd
  · exact digit_head_props c hd
  · subst hd
    exact ⟨by decide, by decide, by decide⟩

theorem serVal_head_props (ind : List Char) (d : Nat) (v : J) :
    ∃ c t, serVal ind d v = c :: t ∧ isWsChar c = false ∧ c ≠ ']' ∧ c ≠ '\x7d' := by
  cases v with
  | num m e =>
    obtain ⟨c, t, hct, hp⟩ := serNum_head_props m e
    exact ⟨c, t, hct, hp⟩
  | bool b => cases b <;> exact ⟨_, _, rfl, by decide⟩
  | arr xs => cases xs <;> exact ⟨'[', _, rfl, by decide⟩
  | obj kvs => cases kvs <;> exact ⟨'\x7b', _, rfl, by decide⟩
  | null => exact ⟨'n', _, rfl, by decide⟩
  | str s => exact ⟨'"', _, rfl, by decide⟩

theorem serElems_eq_head (ind : List Char) (d : Nat) :
    ∀ x xs, serElems ind d (x :: xs) = indentN ind d ++ serElemsHead ind d (x :: xs) := by
  intro x xs
  cases xs with
  | nil => rfl
  | cons y ys => rfl

theorem serMems_eq_head (ind : List Char) (d : Nat) :
    ∀ kv kvs, serMems ind d (kv :: kvs) = indentN ind d ++ serMemsHead ind d (kv :: kvs) := by
  intro kv kvs
  cases kv with
  | mk k v =>
    cases kvs with
    | nil => rfl
    | cons kv2 kvs2 => rfl

theorem fuelVal_pos : ∀ v, 1 ≤ fuelVal v
  | .null => Nat.le_refl _
  | .bool _ => Nat.le_refl _
  | .num _ _ => Nat.le_refl _
  | .str _ => Nat.le_refl _
  | .arr xs => by
    rw [fuelVal]
    omega
  | .obj kvs => by
    rw [fuelVal]
    omega

theorem serNum_ne_nil (m : Int) (e : Nat) : serNum m e ≠ [] := by
  obtain ⟨c, t, hct, _⟩ := serNum_head m e
  rw [hct]
  simp

mutual

theorem fuelVal_le (ind : List Char) : ∀ (d : Nat) (v : J), fuelVal v ≤ (serVal ind d v).length
  | _, .null => by
    rw [fuelVal]
    simp [serVal]
  | _, .bool b => by
    cases b <;> simp [fuelVal, serVal]
  | _, .num m e => by
    rw [fuelVal]
    have h := List.length_pos.mpr (serNum_ne_nil m e)
    show 1 ≤ (serNum m e).length
    omega
  | _, .str s => by
    rw [fuelVal]
    simp [serVal]
  | _, .arr [] => by
    rw [fuelVal, fuelElems]
    simp [serVal]
  | d, .arr (x :: xs) => by
    rw [fuelVal]
    have h := fuelElems_le ind (d + 1) (x :: xs)
    show 1 + fuelElems (x :: xs) ≤
      ('[' :: '\n' :: (serElems ind (d + 1) (x :: xs) ++ (indentN ind d ++ [']']))).length
    simp only [List.length_cons, List.length_append]
    omega
  | _, .obj [] => by
    rw [fuelVal, fuelMems]
    simp [serVal]
  | d, .obj (kv :: kvs) => by
    rw [fuelVal]
    have h := fuelMems_le ind (d + 1) (kv :: kvs)
    show 1 + fuelMems (kv :: kvs) ≤
      ('\x7b' :: '\n' :: (serMems ind (d + 1) (kv :: kvs) ++ (indentN ind d ++ ['\x7d']))).length
    simp only [List.length_cons, List.length_append]
    omega

theorem fuelElems_le (ind : List Char) :
    ∀ (d : Nat) (xs : List J), fuelElems xs ≤ (serElems ind d xs).length + 2
  | _, [] => by
    rw [fuelElems]
    simp [serElems]
  | d, [x] => by
    rw [fuelElems, fuelElems]
    have h := fuelVal_le ind d x
    show 1 + fuelVal x + 1 ≤ (indentN ind d ++ (serVal ind d x ++ ['\n'])).length + 2
    simp only [List.length_append, List.length_cons, List.length_nil]
    omega
  | d, x :: y :: ys => by
    rw [fuelElems]
    have h1 := fuelVal_le ind d x
    have h2 := fuelElems_le ind d (y :: ys)
    show 1 + fuelVal x + fuelElems (y :: ys) ≤
      (indentN ind d ++ (serVal ind d x ++ (',' :: '\n' :: serElems ind d (y :: ys)))).length + 2
    simp only [List.length_append, List.length_cons]
    omega

theorem fuelMems_le (ind : List Char) :
    ∀ (d : Nat) (kvs : List (List Char × J)), fuelMems kvs ≤ (serMems ind d kvs).length + 2
  | _, [] => by
    rw [fuelMems]
    simp [serMems]
  | d, [(k, v)] => by
    rw [fuelMems, fuelMems]
    have h := fuelVal_le ind d v
    show 1 + fuelVal v + 1 ≤ (indentN ind d ++
      ('"' :: (escBody k ++ ('"' :: ':' :: ' ' :: (serVal ind d v ++ ['\n']))))).length + 2
    simp only [List.length_append, List.length_cons, List.length_nil]
    omega
  | d, (k, v) :: kv :: kvs => by
    rw [fuelMems]
    have h1 := fuelVal_le ind d v
    have h2 := fuelMems_le ind d (kv :: kvs)
    show 1 + fuelVal v + fuelMems (kv :: kvs) ≤ (indentN ind d ++
      ('"' :: (escBody k ++ ('"' :: ':' :: ' ' ::
        (serVal ind d v ++ (',' :: '\n' :: serMems ind d (kv :: kvs))))))).length + 2
    simp only [List.length_append, List.length_cons]
    omega

end

theorem normNum_canon : ∀ e m, (normNum m e).2 = 0 ∨ (normNum m e).1 % 10 ≠ 0
  | 0, _ => Or.inl rfl
  | e + 1, m => by
    simp only [normNum]
    by_cases h0 : m = 0
    · rw [if_pos h0]
      exact Or.inl rfl
    · rw [if_neg h0]
      by_cases h1 : m % 10 = 0
      · rw [if_pos h1]
        exact normNum_canon e (m / 10)
      · rw [if_neg h1]
        exact Or.inr h1

theorem mkNum_canon (ip fp : List Nat) (ex : Int) :
    (mkNum ip fp ex).2 = 0 ∨ (mkNum ip fp ex).1 % 10 ≠ 0 := by
  unfold mkNum
  by_cases h : 0 ≤ ex - (fp.length : Int)
  · rw [if_pos h]
    exact Or.inl rfl
  · rw [if_neg h]
    exact normNum_canon _ _

theorem parseExpDigits_canon (ip fp : List Nat) (neg : Bool) (s : List Char)
    (p : Nat × Nat) (r : List Char) (h : parseExpDigits ip fp neg s = some (p, r)) :
    p.2 = 0 ∨ p.1 % 10 ≠ 0 := by
  unfold parseExpDigits at h
  split at h
  · exact absurd h (by simp)
  · simp only [Option.some.injEq, Prod.mk.injEq] at h
    rw [← h.1]
    exact mkNum_canon _ _ _

theorem parseExpPart_canon (ip fp : List Nat) (s : List Char)
    (p : Nat × Nat) (r : List Char) (h : parseExpPart ip fp s = some (p, r)) :
    p.2 = 0 ∨ p.1 % 10 ≠ 0 := by
  unfold parseExpPart at h
  split at h
  any_goals exact parseExpDigits_canon _ _ _ _ _ _ h
  simp only [Option.some.injEq, Prod.mk.injEq] at h
  rw [← h.1]
  exact mkNum_canon _ _ _

theorem parseFracExp_canon (ip : List Nat) (s : List Char)
    (p : Nat × Nat) (r : List Char) (h : parseFracExp ip s = some (p, r)) :
    p.2 = 0 ∨ p.1 % 10 ≠ 0 := by
  unfold parseFracExp at h
  split at h
  · split at h
    · exact absurd h (by simp)
    · exact parseExpPart_canon _ _ _ _ _ h
  · exact parseExpPart_canon _ _ _ _ _ h

theorem parseNumMag_canon (s : List Char) (p : Nat × Nat) (r : List Char)
    (h : parseNumMag s = some (p, r)) : p.2 = 0 ∨ p.1 % 10 ≠ 0 := by
  unfold parseNumMag at h
  split at h
  · exact parseFracExp_canon _ _ _ _ h
  · split at h
    · exact parseFracExp_canon _ _ _ _ h
    · exact absurd h (by simp)
  · exact absurd h (by simp)

theorem parseNumTok_wf (s : List Char) (v : J) (r : List Char)
    (h : parseNumTok s = some (v, r)) : wfVal v := by
  unfold parseNumTok at h
  split at h
  · rcases hp : parseNumMag _ with _ | q
    · rw [hp] at h
      simp at h
    · rw [hp] at h
      simp only [Option.map_some', Option.some.injEq, Prod.mk.injEq] at h
      rw [← h.1]
      have := parseNumMag_canon _ _ _ hp
      simpa [wfVal] using this
  · rcases hp : parseNumMag s with _ | q
    · rw [hp] at h
      simp at h
    · rw [hp] at h
      simp only [Option.map_some', Option.some.injEq, Prod.mk.injEq] at h
      rw [← h.1]
      have := parseNumMag_canon _ _ _ hp
      simpa [wfVal] using this

theorem dictInsert_key_mem (k a : List Char) (v : J) :
    ∀ l, a ∈ (dictInsert k v l).map Prod.fst → a = k ∨ a ∈ l.map Prod.fst
  | [] => by
    intro h
    simp only [dictInsert, List.map_cons, List.map_nil, List.mem_cons,
      List.not_mem_nil, or_false] at h
    exact Or.inl h
  | (k', v') :: l => by
    by_cases h : k = k'
    · simp only [dictInsert, if_pos h, List.map_cons, List.mem_cons]
      intro hm
      exact Or.inr hm
    · simp only [dictInsert, if_neg h, List.map_cons, List.mem_cons]
      intro hm
      rcases hm with h1 | h1
      · exact Or.inr (Or.inl h1)
      · rcases dictInsert_key_mem k a v l h1 with h2 | h2
        · exact Or.inl h2
        · exact Or.inr (Or.inr h2)

theorem dictInsert_nodup (k : List Char) (v : J) :
    ∀ l, (l.map Prod.fst).Nodup → ((dictInsert k v l).map Prod.fst).Nodup
  | [] => by
    intro _
    simp only [dictInsert, List.map_cons, List.map_nil]
    exact List.nodup_singleton k
  | (k', v') :: l => by
    intro hnd
    simp only [List.map_cons, List.nodup_cons] at hnd
    by_cases h : k = k'
    · simp only [dictInsert, if_pos h, List.map_cons, List.nodup_cons]
      exact hnd
    · simp only [dictInsert, if_neg h, List.map_cons, List.nodup_cons]
      refine ⟨fun hm => ?_, dictInsert_nodup k v l hnd.2⟩
      rcases dictInsert_key_mem k k' v l hm with h1 | h1
      · exact h h1.symm
      · exact hnd.1 h1

theorem dictInsert_wfMems (k : List Char) (v : J) :
    ∀ l, wfMems l → wfVal v → wfMems (dictInsert k v l)
  | [] => by
    intro _ hv
    exact ⟨hv, trivial⟩
  | (k', v') :: l => by
    intro hl hv
    by_cases h : k = k'
    · simp only [dictInsert, if_pos h]
      exact ⟨hv, hl.2⟩
    · simp only [dictInsert, if_neg h]
      exact ⟨hl.1, dictInsert_wfMems k v l hl.2 hv⟩

theorem dictInsert_fresh (k : List Char) (v : J) :
    ∀ l, k ∉ l.map Prod.fst → dictInsert k v l = l ++ [(k, v)]
  | [] => by
    intro _
    rfl
  | (k', v') :: l => by
    intro hk
    simp only [List.map_cons, List.mem_cons] at hk
    push_neg at hk
    simp only [dictInsert, if_neg hk.1]
    rw [dictInsert_fresh k v l hk.2]
    rfl

theorem parse_wf : ∀ fuel,
    (∀ s v r, parseVal fuel s = some (v, r) → wfVal v) ∧
    (∀ s vs r, parseElems fuel s = some (vs, r) → wfList vs) ∧
    (∀ acc s kvs r, (acc.map Prod.fst).Nodup → wfMems acc →
      parseMems fuel acc s = some (kvs, r) →
      (kvs.map Prod.fst).Nodup ∧ wfMems kvs) := by
  intro fuel
  induction fuel with
  | zero =>
    refine ⟨fun s v r h => ?_, fun s vs r h => ?_, fun acc s kvs r _ _ h => ?_⟩
    · simp [parseVal] at h
    · simp [parseElems] at h
    · simp [parseMems] at h
  | succ fuel ih =>
    obtain ⟨ihv, ihe, ihm⟩ := ih
    refine ⟨fun s v r h => ?_, fun s vs r h => ?_, fun acc s kvs r hnd hwf h => ?_⟩
    · simp only [parseVal] at h
      split at h
      · simp only [Option.some.injEq, Prod.mk.injEq] at h
        rw [← h.1]
        exact trivial
      · simp only [Option.some.injEq, Prod.mk.injEq] at h
        rw [← h.1]
        exact trivial
      · simp only [Option.some.injEq, Prod.mk.injEq] at h
        rw [← h.1]
        exact trivial
      · rcases hsb : parseStrBody _ with _ | p
        · rw [hsb] at h
          simp at h
        · rw [hsb] at h
          simp only [Option.map_some', Option.some.injEq, Prod.mk.injEq] at h
          rw [← h.1]
          exact trivial
      · split at h
        · simp only [Option.some.injEq, Prod.mk.injEq] at h
          rw [← h.1]
          exact ⟨⟩
        · rcases hpe : parseElems fuel _ with _ | p
          · rw [hpe] at h
            simp at h
          · rw [hpe] at h
            simp only [Option.map_some', Option.some.injEq, Prod.mk.injEq] at h
            rw [← h.1]
            exact ihe _ _ _ hpe
      · split at h
        · simp only [Option.some.injEq, Prod.mk.injEq] at h
          rw [← h.1]
          exact ⟨List.nodup_nil, trivial⟩
        · rcases hpm : parseMems fuel [] _ with _ | p
          · rw [hpm] at h
            simp at h
          · rw [hpm] at h
            simp only [Option.map_some', Option.some.injEq, Prod.mk.injEq] at h
            rw [← h.1]
            exact ihm [] _ _ _ (by simp) trivial hpm
      · exact parseNumTok_wf _ _ _ h
    · simp only [parseElems] at h
      split at h
      · simp at h
      · rename_i v0 r0 heq
        split at h
        · split at h
          · rename_i vs0 r1 heq2
            simp only [Option.some.injEq, Prod.mk.injEq] at h
            rw [← h.1]
            exact ⟨ihv _ _ _ heq, ihe _ _ _ heq2⟩
          · simp at h
        · simp only [Option.some.injEq, Prod.mk.injEq] at h
          rw [← h.1]
          exact ⟨ihv _ _ _ heq, trivial⟩
        · simp at h
    · simp only [parseMems] at h
      split at h
      · split at h
        · simp at h
        · rename_i k0 r1 heq1
          split at h
          · split at h
            · simp at h
            · rename_i v0 r3 heq2
              split at h
              · exact ihm (dictInsert k0 v0 acc) _ _ _
                  (dictInsert_nodup k0 v0 acc hnd)
                  (dictInsert_wfMems k0 v0 acc hwf (ihv _ _ _ heq2)) h
              · simp only [Option.some.injEq, Prod.mk.injEq] at h
                rw [← h.1]
                exact ⟨dictInsert_nodup k0 v0 acc hnd,
                  dictInsert_wfMems k0 v0 acc hwf (ihv _ _ _ heq2)⟩
              · simp at h
          · simp at h
      · simp at h

theorem numStop_nl (X : List Char) : numStop ('\n' :: X) :=
  ⟨by decide, by decide, by decide, by decide⟩

theorem numStop_comma (X : List Char) : numStop (',' :: X) :=
  ⟨by decide, by decide, by decide, by decide⟩

theorem serElemsHead_head (ind : List Char) (d : Nat) (x : J) (xs : List J) :
    ∃ c t, serElemsHead ind d (x :: xs) = c :: t ∧
      isWsChar c = false ∧ c ≠ ']' ∧ c ≠ '\x7d' := by
  obtain ⟨c, t, hct, h⟩ := serVal_head_props ind d x
  cases xs with
  | nil =>
    refine ⟨c, t ++ ['\n'], ?_, h⟩
    show serVal ind d x ++ ['\n'] = c :: (t ++ ['\n'])
    rw [hct, List.cons_append]
  | cons y ys =>
    refine ⟨c, t ++ (',' :: '\n' :: serElems ind d (y :: ys)), ?_, h⟩
    show serVal ind d x ++ (',' :: '\n' :: serElems ind d (y :: ys)) = c :: _
    rw [hct, List.cons_append]

theorem serMemsHead_head (ind : List Char) (d : Nat) (kv : List Char × J)
    (kvs : List (List Char × J)) :
    ∃ t, serMemsHead ind d (kv :: kvs) = '"' :: t := by
  cases kv with
  | mk k v =>
    cases kvs with
    | nil => exact ⟨_, rfl⟩
    | cons kv2 kvs2 => exact ⟨_, rfl⟩

theorem parseVal_null (fuel : Nat) (r : List Char) :
    parseVal (fuel + 1) ('n' :: 'u' :: 'l' :: 'l' :: r) = some (J.null, r) := rfl

theorem parseVal_true (fuel : Nat) (r : List Char) :
    parseVal (fuel + 1) ('t' :: 'r' :: 'u' :: 'e' :: r) = some (J.bool true, r) := rfl

theorem parseVal_false (fuel : Nat) (r : List Char) :
    parseVal (fuel + 1) ('f' :: 'a' :: 'l' :: 's' :: 'e' :: r) = some (J.bool false, r) := rfl

theorem parseVal_quote (fuel : Nat) (r : List Char) :
    parseVal (fuel + 1) ('"' :: r) = (parseStrBody r).map (fun p => (J.str p.1, p.2)) := rfl

theorem parseVal_arr_nil (fuel : Nat) (rest : List Char) :
    parseVal (fuel + 1) ('[' :: ']' :: rest) = some (J.arr [], rest) := rfl

theorem parseVal_obj_nil (fuel : Nat) (rest : List Char) :
    parseVal (fuel + 1) ('\x7b' :: '\x7d' :: rest) = some (J.obj [], rest) := rfl

theorem parseVal_bracket (fuel : Nat) (r : List Char) :
    parseVal (fuel + 1) ('[' :: r) =
      (match skipWs r with
       | ']' :: r' => some (J.arr [], r')
       | r' => (parseElems fuel r').map (fun p => (J.arr p.1, p.2))) := rfl

theorem parseVal_brace (fuel : Nat) (r : List Char) :
    parseVal (fuel + 1) ('\x7b' :: r) =
      (match skipWs r with
       | '\x7d' :: r' => some (J.obj [], r')
       | r' => (parseMems fuel [] r').map (fun p => (J.obj p.1, p.2))) := rfl

theorem parseVal_arr_go (fuel : Nat) (r : List Char) (c : Char) (Z : List Char)
    (h : skipWs r = c :: Z) (hc : c ≠ ']') :
    parseVal (fuel + 1) ('[' :: r) =
      (parseElems fuel (c :: Z)).map (fun p => (J.arr p.1, p.2)) := by
  rw [parseVal_bracket, h]
  split
  · rename_i heq
    rw [List.cons.injEq] at heq
    exact absurd heq.1 hc
  · rfl

theorem parseVal_obj_go (fuel : Nat) (r : List Char) (c : Char) (Z : List Char)
    (h : skipWs r = c :: Z) (hc : c ≠ '\x7d') :
    parseVal (fuel + 1) ('\x7b' :: r) =
      (parseMems fuel [] (c :: Z)).map (fun p => (J.obj p.1, p.2)) := by
  rw [parseVal_brace, h]
  split
  · rename_i heq
    rw [List.cons.injEq] at heq
    exact absurd heq.1 hc
  · rfl

theorem parseElems_done (fuel : Nat) (s : List Char) (x : J) (Y rest : List Char)
    (h1 : parseVal fuel s = some (x, Y)) (h2 : skipWs Y = ']' :: rest) :
    parseElems (fuel + 1) s = some ([x], rest) := by
  have e1 : parseElems (fuel + 1) s =
      (match skipWs Y with
       | ',' :: r' =>
         (match parseElems fuel (skipWs r') with
          | some (vs, r'') => some (x :: vs, r'')
          | none => none)
       | ']' :: r' => some ([x], r')
       | _ => none) := by
    conv_lhs => rw [parseElems, h1]
  rw [e1, h2]
  rfl

theorem parseElems_more (fuel : Nat) (s : List Char) (x : J) (Y r' : List Char)
    (vs : List J) (rest : List Char)
    (h1 : parseVal fuel s = some (x, Y)) (h2 : skipWs Y = ',' :: r')
    (h3 : parseElems fuel (skipWs r') = some (vs, rest)) :
    parseElems (fuel + 1) s = some (x :: vs, rest) := by
  have e1 : parseElems (fuel + 1) s =
      (match skipWs Y with
       | ',' :: r' =>
         (match parseElems fuel (skipWs r') with
          | some (vs, r'') => some (x :: vs, r'')
          | none => none)
       | ']' :: r' => some ([x], r')
       | _ => none) := by
    conv_lhs => rw [parseElems, h1]
  rw [e1, h2]
  show (match parseElems fuel (skipWs r') with
        | some (vs, r'') => some (x :: vs, r'')
        | none => none) = some (x :: vs, rest)
  rw [h3]

theorem parseMems_done (fuel : Nat) (acc : List (List Char × J)) (r : List Char)
    (k : List Char) (r1 Y2 : List Char) (v : J) (Y3 rest : List Char)
    (h1 : parseStrBody r = some (k, r1)) (h2 : skipWs r1 = ':' :: Y2)
    (h3 : parseVal fuel (skipWs Y2) = some (v, Y3)) (h4 : skipWs Y3 = '\x7d' :: rest) :
    parseMems (fuel + 1) acc ('"' :: r) = some (dictInsert k v acc, rest) := by
  have e1 : parseMems (fuel + 1) acc ('"' :: r) =
      (match skipWs r1 with
       | ':' :: r2 =>
         (match parseVal fuel (skipWs r2) with
          | none => none
          | some (v, r3) =>
            match skipWs r3 with
            | ',' :: r4 => parseMems fuel (dictInsert k v acc) (skipWs r4)
            | '\x7d' :: r4 => some (dictInsert k v acc, r4)
            | _ => none)
       | _ => none) := by
    conv_lhs => rw [parseMems, h1]
  rw [e1, h2]
  show (match parseVal fuel (skipWs Y2) with
        | none => none
        | some (v, r3) =>
          match skipWs r3 with
          | ',' :: r4 => parseMems fuel (dictInsert k v acc) (skipWs r4)
          | '\x7d' :: r4 => some (dictInsert k v acc, r4)
          | _ => none) = some (dictInsert k v acc, rest)
  rw [h3]
  show (match skipWs Y3 with
        | ',' :: r4 => parseMems fuel (dictInsert k v acc) (skipWs r4)
        | '\x7d' :: r4 => some (dictInsert k v acc, r4)
        | _ => none) = some (dictInsert k v acc, rest)
  rw [h4]
  rfl

theorem parseMems_more (fuel : Nat) (acc : List (List Char × J)) (r : List Char)
    (k : List Char) (r1 Y2 : List Char) (v : J) (Y3 r4 : List Char)
    (h1 : parseStrBody r = some (k, r1)) (h2 : skipWs r1 = ':' :: Y2)
    (h3 : parseVal fuel (skipWs Y2) = some (v, Y3)) (h4 : skipWs Y3 = ',' :: r4) :
    parseMems (fuel + 1) acc ('"' :: r) = parseMems fuel (dictInsert k v acc) (skipWs r4) := by
  have e1 : parseMems (fuel + 1) acc ('"' :: r) =
      (match skipWs r1 with
       | ':' :: r2 =>
         (match parseVal fuel (skipWs r2) with
          | none => none
          | some (v, r3) =>
            match skipWs r3 with
            | ',' :: r4 => parseMems fuel (dictInsert k v acc) (skipWs r4)
            | '\x7d' :: r4 => some (dictInsert k v acc, r4)
            | _ => none)
       | _ => none) := by
    conv_lhs => rw [parseMems, h1]
  rw [e1, h2]
  show (match parseVal fuel (skipWs Y2) with
        | none => none
        | some (v, r3) =>
          match skipWs r3 with
          | ',' :: r4 => parseMems fuel (dictInsert k v acc) (skipWs r4)
          | '\x7d' :: r4 => some (dictInsert k v acc, r4)
          | _ => none) = parseMems fuel (dictInsert k v acc) (skipWs r4)
  rw [h3]
  show (match skipWs Y3 with
        | ',' :: r4 => parseMems fuel (dictInsert k v acc) (skipWs r4)
        | '\x7d' :: r4 => some (dictInsert k v acc, r4)
        | _ => none) = parseMems fuel (dictInsert k v acc) (skipWs r4)
  rw [h4]
  rfl

theorem parse_ser (ind : List Char) (hind : ∀ c ∈ ind, isWsChar c = true) : ∀ fuel : Nat,
    (∀ d v rest, wfVal v → numStop rest → fuelVal v ≤ fuel →
      parseVal fuel (serVal ind d v ++ rest) = some (v, rest)) ∧
    (∀ d x xs pad rest, wfVal x → wfList xs → (∀ c ∈ pad, isWsChar c = true) →
      fuelElems (x :: xs) ≤ fuel →
      parseElems fuel (serElemsHead ind d (x :: xs) ++ (pad ++ (']' :: rest))) =
        some (x :: xs, rest)) ∧
    (∀ d k v kvs acc pad rest, wfVal v → wfMems kvs →
      ((acc ++ (k, v) :: kvs).map Prod.fst).Nodup →
      (∀ c ∈ pad, isWsChar c = true) →
      fuelMems ((k, v) :: kvs) ≤ fuel →
      parseMems fuel acc (serMemsHead ind d ((k, v) :: kvs) ++ (pad ++ ('\x7d' :: rest))) =
        some (acc ++ (k, v) :: kvs, rest)) := by
  intro fuel
  induction fuel with
  | zero =>
    refine ⟨?_, ?_, ?_⟩
    · intro d v rest _ _ hfu
      exact absurd (Nat.le_trans (fuelVal_pos v) hfu) (by decide)
    · intro d x xs pad rest _ _ _ hfu
      rw [fuelElems] at hfu
      omega
    · intro d k v kvs acc pad rest _ _ _ _ hfu
      rw [fuelMems] at hfu
      omega
  | succ fuel ih =>
    obtain ⟨ihv, ihe, ihm⟩ := ih
    refine ⟨?_, ?_, ?_⟩
    · intro d v rest hwf hstop hfu
      cases v with
      | null => exact parseVal_null fuel rest
      | bool b =>
        cases b with
        | true => exact parseVal_true fuel rest
        | false => exact parseVal_false fuel rest
      | num m e =>
        obtain ⟨c, t, hct, hcd⟩ := serNum_head m e
        have hwf' : e = 0 ∨ m.natAbs % 10 ≠ 0 := hwf
        show parseVal (fuel + 1) (serNum m e ++ rest) = some (J.num m e, rest)
        rw [hct, List.cons_append]
        simp only [parseVal]
        split
        · rename_i heq
          rw [List.cons.injEq] at heq
          rcases hcd with h | h
          · rw [heq.1] at h
            exact absurd h (by decide)
          · rw [h] at heq
            exact absurd heq.1 (by decide)
        · rename_i heq
          rw [List.cons.injEq] at heq
          rcases hcd with h | h
          · rw [heq.1] at h
            exact absurd h (by decide)
          · rw [h] at heq
            exact absurd heq.1 (by decide)
        · rename_i heq
          rw [List.cons.injEq] at heq
          rcases hcd with h | h
          · rw [heq.1] at h
            exact absurd h (by decide)
          · rw [h] at heq
            exact absurd heq.1 (by decide)
        · rename_i heq
          rw [List.cons.injEq] at heq
          rcases hcd with h | h
          · rw [heq.1] at h
            exact absurd h (by decide)
          · rw [h] at heq
            exact absurd heq.1 (by decide)
        · rename_i heq
          rw [List.cons.injEq] at heq
          rcases hcd with h | h
          · rw [heq.1] at h
            exact absurd h (by decide)
          · rw [h] at heq
            exact absurd heq.1 (by decide)
        · rename_i heq
          rw [List.cons.injEq] at heq
          rcases hcd with h | h
          · rw [heq.1] at h
            exact absurd h (by decide)
          · rw [h] at heq
            exact absurd heq.1 (by decide)
        · rw [← List.cons_append, ← hct]
          exact parseNumTok_ser m e hwf' rest hstop
      | str s =>
        show parseVal (fuel + 1) ('"' :: ((escBody s ++ ['"']) ++ rest)) = some (J.str s, rest)
        rw [parseVal_quote, List.append_assoc, List.singleton_append, parseStrBody_esc]
        rfl
      | arr xs =>
        cases xs with
        | nil => exact parseVal_arr_nil fuel rest
        | cons x xs =>
          have hwf' : wfVal x ∧ wfList xs := hwf
          have hfu' : fuelElems (x :: xs) ≤ fuel := by
            rw [fuelVal] at hfu
            omega
          obtain ⟨c, t, hche, hw, hc1, hc2⟩ := serElemsHead_head ind (d + 1) x xs
          have hskip : skipWs ('\n' :: ((serElems ind (d + 1) (x :: xs) ++
              (indentN ind d ++ [']'])) ++ rest)) =
              c :: (t ++ (indentN ind d ++ (']' :: rest))) := by
            show skipWs ((serElems ind (d + 1) (x :: xs) ++
              (indentN ind d ++ [']'])) ++ rest) = _
            rw [serElems_eq_head]
            simp only [List.append_assoc, List.cons_append, List.singleton_append, List.nil_append]
            rw [skipWs_ws_append _ _ (indentN_ws ind hind (d + 1))]
            rw [hche, List.cons_append]
            exact skipWs_not_ws _ hw
          rw [show serVal ind d (J.arr (x :: xs)) ++ rest =
              '[' :: ('\n' :: ((serElems ind (d + 1) (x :: xs) ++
                (indentN ind d ++ [']'])) ++ rest)) from rfl]
          rw [parseVal_arr_go fuel _ c _ hskip hc1]
          rw [show c :: (t ++ (indentN ind d ++ (']' :: rest))) =
              serElemsHead ind (d + 1) (x :: xs) ++ (indentN ind d ++ (']' :: rest)) from by
            rw [hche, List.cons_append]]
          rw [ihe (d + 1) x xs (indentN ind d) rest hwf'.1 hwf'.2
            (indentN_ws ind hind d) hfu']
          rfl
      | obj kvs =>
        cases kvs with
        | nil => exact parseVal_obj_nil fuel rest
        | cons kv kvs =>
          cases kv with
          | mk k v =>
            have hwf' : (((k, v) :: kvs).map Prod.fst).Nodup ∧ (wfVal v ∧ wfMems kvs) := hwf
            have hfu' : fuelMems ((k, v) :: kvs) ≤ fuel := by
              rw [fuelVal] at hfu
              omega
            obtain ⟨tm, hmhe⟩ := serMemsHead_head ind (d + 1) (k, v) kvs
            have hskip : skipWs ('\n' :: ((serMems ind (d + 1) ((k, v) :: kvs) ++
                (indentN ind d ++ ['\x7d'])) ++ rest)) =
                '"' :: (tm ++ (indentN ind d ++ ('\x7d' :: rest))) := by
              show skipWs ((serMems ind (d + 1) ((k, v) :: kvs) ++
                (indentN ind d ++ ['\x7d'])) ++ rest) = _
              rw [serMems_eq_head]
              simp only [List.append_assoc, List.cons_append, List.singleton_append, List.nil_append]
              rw [skipWs_ws_append _ _ (indentN_ws ind hind (d + 1))]
              rw [hmhe, List.cons_append]
              exact skipWs_not_ws _ (show isWsChar '"' = false by decide)
            rw [show serVal ind d (J.obj ((k, v) :: kvs)) ++ rest =
                '\x7b' :: ('\n' :: ((serMems ind (d + 1) ((k, v) :: kvs) ++
                  (indentN ind d ++ ['\x7d'])) ++ rest)) from rfl]
            rw [parseVal_obj_go fuel _ '"' _ hskip (by decide)]
            rw [show '"' :: (tm ++ (indentN ind d ++ ('\x7d' :: rest))) =
                serMemsHead ind (d + 1) ((k, v) :: kvs) ++
                  (indentN ind d ++ ('\x7d' :: rest)) from by
              rw [hmhe, List.cons_append]]
            rw [ihm (d + 1) k v kvs [] (indentN ind d) rest hwf'.2.1 hwf'.2.2 hwf'.1
              (indentN_ws ind hind d) hfu']
            rfl
    · intro d x xs pad rest hwx hwxs hpad hfu
      cases xs with
      | nil =>
        rw [show serElemsHead ind d [x] ++ (pad ++ (']' :: rest)) =
            serVal ind d x ++ ('\n' :: (pad ++ (']' :: rest))) from by
          show (serVal ind d x ++ ['\n']) ++ (pad ++ (']' :: rest)) = _
          rw [List.append_assoc, List.singleton_append]]
        refine parseElems_done fuel _ x ('\n' :: (pad ++ (']' :: rest))) rest ?_ ?_
        · exact ihv d x _ hwx (numStop_nl _) (by
            rw [fuelElems, fuelElems] at hfu
            omega)
        · show skipWs (pad ++ (']' :: rest)) = ']' :: rest
          rw [skipWs_ws_append _ _ hpad]
          exact skipWs_not_ws _ (show isWsChar ']' = false by decide)
      | cons y ys =>
        have hwys : wfVal y ∧ wfList ys := hwxs
        rw [show serElemsHead ind d (x :: y :: ys) ++ (pad ++ (']' :: rest)) =
            serVal ind d x ++ (',' :: '\n' ::
              (serElems ind d (y :: ys) ++ (pad ++ (']' :: rest)))) from by
          show (serVal ind d x ++ (',' :: '\n' :: serElems ind d (y :: ys))) ++
            (pad ++ (']' :: rest)) = _
          simp only [List.append_assoc, List.cons_append, List.singleton_append, List.nil_append]]
        refine parseElems_more fuel _ x
          (',' :: '\n' :: (serElems ind d (y :: ys) ++ (pad ++ (']' :: rest))))
          ('\n' :: (serElems ind d (y :: ys) ++ (pad ++ (']' :: rest))))
          (y :: ys) rest ?_ ?_ ?_
        · exact ihv d x _ hwx (numStop_comma _) (by
            rw [fuelElems] at hfu
            omega)
        · exact skipWs_not_ws _ (show isWsChar ',' = false by decide)
        · have hr : skipWs ('\n' :: (serElems ind d (y :: ys) ++ (pad ++ (']' :: rest)))) =
              serElemsHead ind d (y :: ys) ++ (pad ++ (']' :: rest)) := by
            show skipWs (serElems ind d (y :: ys) ++ (pad ++ (']' :: rest))) = _
            rw [serElems_eq_head, List.append_assoc]
            rw [skipWs_ws_append _ _ (indentN_ws ind hind d)]
            obtain ⟨c, t, hche, hw, _, _⟩ := serElemsHead_head ind d y ys
            rw [hche, List.cons_append]
            exact skipWs_not_ws _ hw
          rw [hr]
          exact ihe d y ys pad rest hwys.1 hwys.2 hpad (by
            rw [fuelElems] at hfu
            omega)
    · intro d k v kvs acc pad rest hwv hwm hnd hpad hfu
      have hfresh : k ∉ acc.map Prod.fst := by
        intro hmem
        rw [List.map_append] at hnd
        exact (List.nodup_append.mp hnd).2.2 hmem (List.mem_cons_self _ _)
      cases kvs with
      | nil =>
        rw [show serMemsHead ind d [(k, v)] ++ (pad ++ ('\x7d' :: rest)) =
            '"' :: (escBody k ++ ('"' :: ':' :: ' ' ::
              (serVal ind d v ++ ('\n' :: (pad ++ ('\x7d' :: rest)))))) from by
          show ('"' :: (escBody k ++ ('"' :: ':' :: ' ' :: (serVal ind d v ++ ['\n'])))) ++
            (pad ++ ('\x7d' :: rest)) = _
          simp only [List.append_assoc, List.cons_append, List.singleton_append, List.nil_append]]
        rw [← dictInsert_fresh k v acc hfresh]
        have h1 : parseStrBody (escBody k ++ ('"' :: (':' :: ' ' ::
            (serVal ind d v ++ ('\n' :: (pad ++ ('\x7d' :: rest))))))) =
            some (k, ':' :: ' ' :: (serVal ind d v ++ ('\n' :: (pad ++ ('\x7d' :: rest))))) :=
          parseStrBody_esc k _
        have h2 : skipWs (':' :: ' ' ::
            (serVal ind d v ++ ('\n' :: (pad ++ ('\x7d' :: rest))))) =
            ':' :: (' ' :: (serVal ind d v ++ ('\n' :: (pad ++ ('\x7d' :: rest))))) :=
          skipWs_not_ws _ (show isWsChar ':' = false by decide)
        have h3 : parseVal fuel (skipWs (' ' ::
            (serVal ind d v ++ ('\n' :: (pad ++ ('\x7d' :: rest)))))) =
            some (v, '\n' :: (pad ++ ('\x7d' :: rest))) := by
          have hs : skipWs (' ' :: (serVal ind d v ++ ('\n' :: (pad ++ ('\x7d' :: rest))))) =
              serVal ind d v ++ ('\n' :: (pad ++ ('\x7d' :: rest))) := by
            show skipWs (serVal ind d v ++ ('\n' :: (pad ++ ('\x7d' :: rest)))) = _
            obtain ⟨c, t, hct, hw, _, _⟩ := serVal_head_props ind d v
            rw [hct, List.cons_append]
            exact skipWs_not_ws _ hw
          rw [hs]
          exact ihv d v _ hwv (numStop_nl _) (by
            rw [fuelMems, fuelMems] at hfu
            omega)
        have h4 : skipWs ('\n' :: (pad ++ ('\x7d' :: rest))) = '\x7d' :: rest := by
          show skipWs (pad ++ ('\x7d' :: rest)) = _
          rw [skipWs_ws_append _ _ hpad]
          exact skipWs_not_ws _ (show isWsChar '\x7d' = false by decide)
        exact parseMems_done fuel acc _ k _ _ v _ rest h1 h2 h3 h4
      | cons kv2 kvs2 =>
        cases kv2 with
        | mk k2 v2 =>
          have hwm' : wfVal v2 ∧ wfMems kvs2 := hwm
          rw [show serMemsHead ind d ((k, v) :: (k2, v2) :: kvs2) ++ (pad ++ ('\x7d' :: rest)) =
              '"' :: (escBody k ++ ('"' :: ':' :: ' ' ::
                (serVal ind d v ++ (',' :: '\n' ::
                  (serMems ind d ((k2, v2) :: kvs2) ++ (pad ++ ('\x7d' :: rest))))))) from by
            show ('"' :: (escBody k ++ ('"' :: ':' :: ' ' ::
              (serVal ind d v ++ (',' :: '\n' :: serMems ind d ((k2, v2) :: kvs2)))))) ++
              (pad ++ ('\x7d' :: rest)) = _
            simp only [List.append_assoc, List.cons_append, List.singleton_append, List.nil_append]]
          have h1 : parseStrBody (escBody k ++ ('"' :: (':' :: ' ' ::
              (serVal ind d v ++ (',' :: '\n' ::
                (serMems ind d ((k2, v2) :: kvs2) ++ (pad ++ ('\x7d' :: rest)))))))) =
              some (k, ':' :: ' ' :: (serVal ind d v ++ (',' :: '\n' ::
                (serMems ind d ((k2, v2) :: kvs2) ++ (pad ++ ('\x7d' :: rest)))))) :=
            parseStrBody_esc k _
          have h2 : skipWs (':' :: ' ' :: (serVal ind d v ++ (',' :: '\n' ::
              (serMems ind d ((k2, v2) :: kvs2) ++ (pad ++ ('\x7d' :: rest)))))) =
              ':' :: (' ' :: (serVal ind d v ++ (',' :: '\n' ::
                (serMems ind d ((k2, v2) :: kvs2) ++ (pad ++ ('\x7d' :: rest)))))) :=
            skipWs_not_ws _ (show isWsChar ':' = false by decide)
          have h3 : parseVal fuel (skipWs (' ' :: (serVal ind d v ++ (',' :: '\n' ::
              (serMems ind d ((k2, v2) :: kvs2) ++ (pad ++ ('\x7d' :: rest))))))) =
              some (v, ',' :: '\n' ::
                (serMems ind d ((k2, v2) :: kvs2) ++ (pad ++ ('\x7d' :: rest)))) := by
            have hs : skipWs (' ' :: (serVal ind d v ++ (',' :: '\n' ::
                (serMems ind d ((k2, v2) :: kvs2) ++ (pad ++ ('\x7d' :: rest)))))) =
                serVal ind d v ++ (',' :: '\n' ::
                  (serMems ind d ((k2, v2) :: kvs2) ++ (pad ++ ('\x7d' :: rest)))) := by
              show skipWs (serVal ind d v ++ (',' :: '\n' ::
                (serMems ind d ((k2, v2) :: kvs2) ++ (pad ++ ('\x7d' :: rest))))) = _
              obtain ⟨c, t, hct, hw, _, _⟩ := serVal_head_props ind d v
              rw [hct, List.cons_append]
              exact skipWs_not_ws _ hw
            rw [hs]
            exact ihv d v _ hwv (numStop_comma _) (by
              rw [fuelMems] at hfu
              omega)
          have h4 : skipWs (',' :: ('\n' ::
              (serMems ind d ((k2, v2) :: kvs2) ++ (pad ++ ('\x7d' :: rest))))) =
              ',' :: ('\n' ::
                (serMems ind d ((k2, v2) :: kvs2) ++ (pad ++ ('\x7d' :: rest)))) :=
            skipWs_not_ws _ (show isWsChar ',' = false by decide)
          rw [parseMems_more fuel acc _ k _ _ v _ _ h1 h2 h3 h4]
          have hsw : skipWs ('\n' ::
              (serMems ind d ((k2, v2) :: kvs2) ++ (pad ++ ('\x7d' :: rest)))) =
              serMemsHead ind d ((k2, v2) :: kvs2) ++ (pad ++ ('\x7d' :: rest)) := by
            show skipWs (serMems ind d ((k2, v2) :: kvs2) ++ (pad ++ ('\x7d' :: rest))) = _
            rw [serMems_eq_head, List.append_assoc]
            rw [skipWs_ws_append _ _ (indentN_ws ind hind d)]
            obtain ⟨t2, hmhe⟩ := serMemsHead_head ind d (k2, v2) kvs2
            rw [hmhe, List.cons_append]
            exact skipWs_not_ws _ (show isWsChar '"' = false by decide)
          rw [hsw, dictInsert_fresh k v acc hfresh]
          have hnd' : (((acc ++ [(k, v)]) ++ (k2, v2) :: kvs2).map Prod.fst).Nodup := by
            rw [List.append_assoc, List.singleton_append]
            exact hnd
          rw [ihm d k2 v2 kvs2 (acc ++ [(k, v)]) pad rest hwm'.1 hwm'.2 hnd' hpad (by
            rw [fuelMems] at hfu
            omega)]
          rw [List.append_assoc, List.singleton_append]

theorem hasKeyDeep_of_mem : ∀ (l : List (List Char × J)) (k : List Char) (v v' : J),
    (k, v') ∈ l → DeepEq v v' → HasKeyDeep l k v
  | [], _, _, _, h, _ => absurd h (List.not_mem_nil _)
  | (k0, v0) :: rest, k, v, v', h, hd => by
    rcases List.mem_cons.mp h with h1 | h1
    · rw [Prod.mk.injEq] at h1
      rw [← h1.1, ← h1.2]
      exact HasKeyDeep.head k v v' rest hd
    · exact HasKeyDeep.tail _ _ _ _ (hasKeyDeep_of_mem rest k v v' h1 hd)

theorem allMatch_of_mem : ∀ l₁ l₂ : List (List Char × J),
    (∀ p ∈ l₁, HasKeyDeep l₂ p.1 p.2) → AllMatch l₁ l₂
  | [], l₂, _ => AllMatch.nil l₂
  | (k, v) :: rest, l₂, h =>
    AllMatch.cons k v rest l₂ (h (k, v) (List.mem_cons_self _ _))
      (allMatch_of_mem rest l₂ (fun p hp => h p (List.mem_cons_of_mem _ hp)))

theorem deepEq_obj_sort (kvs : List (List Char × J))
    (hP : ∀ p ∈ kvs, DeepEq (sortJSONKeys p.2) p.2 ∧ DeepEq p.2 (sortJSONKeys p.2)) :
    DeepEq (J.obj (List.insertionSort keyLe (sjkMems kvs))) (J.obj kvs) ∧
    DeepEq (J.obj kvs) (J.obj (List.insertionSort keyLe (sjkMems kvs))) := by
  have hperm := List.perm_insertionSort keyLe (sjkMems kvs)
  have hlen : (List.insertionSort keyLe (sjkMems kvs)).length = kvs.length := by
    rw [hperm.length_eq, sjkMems_eq_map, List.length_map]
  have hmem : ∀ p, p ∈ List.insertionSort keyLe (sjkMems kvs) ↔ p ∈ sjkMems kvs :=
    fun _ => hperm.mem_iff
  have h12 : AllMatch (List.insertionSort keyLe (sjkMems kvs)) kvs := by
    apply allMatch_of_mem
    intro p hp
    have hp2 : p ∈ sjkMems kvs := (hmem p).mp hp
    rw [sjkMems_eq_map] at hp2
    obtain ⟨q, hq, hpq⟩ := List.mem_map.mp hp2
    rw [← hpq]
    exact hasKeyDeep_of_mem kvs q.1 (sortJSONKeys q.2) q.2
      (by rw [Prod.mk.eta]; exact hq) (hP q hq).1
  have h21 : AllMatch kvs (List.insertionSort keyLe (sjkMems kvs)) := by
    apply allMatch_of_mem
    intro p hp
    have hmem2 : (p.1, sortJSONKeys p.2) ∈ List.insertionSort keyLe (sjkMems kvs) := by
      rw [hmem, sjkMems_eq_map]
      exact List.mem_map.mpr ⟨p, hp, rfl⟩
    exact hasKeyDeep_of_mem _ p.1 p.2 (sortJSONKeys p.2) hmem2 (hP p hp).2
  exact ⟨DeepEq.obj _ _ hlen h12 h21, DeepEq.obj _ _ hlen.symm h21 h12⟩

mutual

theorem deepEq_sjk : ∀ v, DeepEq (sortJSONKeys v) v ∧ DeepEq v (sortJSONKeys v)
  | .null => ⟨DeepEq.null, DeepEq.null⟩
  | .bool b => ⟨DeepEq.bool b, DeepEq.bool b⟩
  | .num m e => ⟨DeepEq.num m e, DeepEq.num m e⟩
  | .str s => ⟨DeepEq.str s, DeepEq.str s⟩
  | .arr xs => by
    have h := deepEqList_sjk xs
    simp only [sortJSONKeys]
    exact ⟨DeepEq.arr _ _ h.1, DeepEq.arr _ _ h.2⟩
  | .obj kvs => by
    have h := deepEqMems_sjk kvs
    simp only [sortJSONKeys]
    exact deepEq_obj_sort kvs h

theorem deepEqList_sjk : ∀ xs, DeepEqList (sjkList xs) xs ∧ DeepEqList xs (sjkList xs)
  | [] => ⟨DeepEqList.nil, DeepEqList.nil⟩
  | x :: xs => by
    have h1 := deepEq_sjk x
    have h2 := deepEqList_sjk xs
    simp only [sjkList]
    exact ⟨DeepEqList.cons _ _ _ _ h1.1 h2.1, DeepEqList.cons _ _ _ _ h1.2 h2.2⟩

theorem deepEqMems_sjk :
    ∀ kvs : List (List Char × J),
      ∀ p ∈ kvs, DeepEq (sortJSONKeys p.2) p.2 ∧ DeepEq p.2 (sortJSONKeys p.2)
  | [] => fun p hp => absurd hp (List.not_mem_nil p)
  | (k, v) :: kvs => fun p hp => by
    rcases List.mem_cons.mp hp with h | h
    · rw [h]
      exact deepEq_sjk v
    · exact deepEqMems_sjk kvs p h

end

theorem unmarshal_wf (data : List Char) (v : J) (h : unmarshal data = some v) : wfVal v := by
  simp only [unmarshal] at h
  split at h
  · rename_i v' rest heq
    split at h
    · injection h with h'
      subst h'
      exact (parse_wf _).1 _ _ _ heq
    · exact absurd h (by simp)
  · exact absurd h (by simp)

theorem replicate_space_ws (n : Nat) : ∀ c ∈ List.replicate n ' ', isWsChar c = true := by
  intro c hc
  rw [List.eq_of_mem_replicate hc]
  decide

theorem unmarshal_serVal (ind : List Char) (hind : ∀ c ∈ ind, isWsChar c = true)
    (v : J) (hwf : wfVal v) : unmarshal (serVal ind 0 v) = some v := by
  obtain ⟨c, t, hct, hw, _, _⟩ := serVal_head_props ind 0 v
  have hskip : skipWs (serVal ind 0 v) = serVal ind 0 v := by
    rw [hct]
    exact skipWs_not_ws _ hw
  have hp : parseVal ((serVal ind 0 v).length + 1) (serVal ind 0 v) = some (v, []) := by
    have h := (parse_ser ind hind ((serVal ind 0 v).length + 1)).1 0 v [] hwf trivial
      (Nat.le_trans (fuelVal_le ind 0 v) (Nat.le_succ _))
    rwa [List.append_nil] at h
  simp only [unmarshal]
  rw [hskip, hp]
  rfl

theorem Format_eq (data : List Char) (v : J) (w : Int) (sk : Bool)
    (hv : unmarshal data = some v) (hw : 0 ≤ w) :
    Format data ⟨w, sk⟩ =
      FmtResult.ok (serVal (List.replicate w.toNat ' ') 0 (sortJSONKeys v)) := by
  have hrep : stringsRepeat w = some (List.replicate w.toNat ' ') := by
    unfold stringsRepeat
    rw [if_neg (by omega)]
  cases sk with
  | false => simp [Format, hv, hrep, marshalIndent]
  | true => simp [Format, hv, hrep, marshalIndent, sjk_idem]

/-- Claim C9: for every valid document and every nonnegative indent width,
formatting with and without `SortKeys` yields byte-for-byte identical
output: `sortJSONKeys` rebuilds an unordered map, and the marshaller emits
every map's keys in sorted order regardless, so sorting twice equals
sorting once. -/
theorem c9_sortkeys_no_observable_effect (data : List Char) (v : J) (w : Int)
    (hv : unmarshal data = some v) (hw : 0 ≤ w) :
    Format data ⟨w, true⟩ = Format data ⟨w, false⟩ := by
  unfold Format
  rw [hv]
  simp only [stringsRepeat, if_neg (not_lt.mpr hw), if_pos, if_neg, Bool.false_eq_true,
    if_false, if_true]
  unfold marshalIndent
  rw [sjk_idem]

/-- Witness for C9 at a two-key document with indent 2. -/
theorem c9_sortkeys_no_observable_effect_witness :
    Format txPair ⟨2, true⟩ = Format txPair ⟨2, false⟩ :=
  c9_sortkeys_no_observable_effect txPair
    (J.obj [(['b'], J.num 1 0), (['a'], J.num 2 0)]) 2 rfl (by decide)

/-- Claim C7: `ValidateJSON(b)` returns true if and only if `Format(b, opts)`
does not fail with a `ParseError`, for every byte string and every options
value.  Both call the same `json.Unmarshal`; when it succeeds, `Format`
either panics on a negative indent or returns output, neither of which is a
`ParseError`. -/
theorem c7_validate_iff_no_parse_error (b : List Char) (opts : Options) :
    ValidateJSON b = true ↔ Format b opts ≠ FmtResult.parseError := by
  unfold ValidateJSON Format
  cases h : unmarshal b with
  | none => simp
  | some v =>
    cases hr : stringsRepeat opts.IndentSpaces with
    | none => simp
    | some ind => simp

/-- Claim C10: on valid JSON input, `Format` panics (in
`strings.Repeat(" ", n)`, reached only after a successful parse) exactly for
a negative `IndentSpaces`; with a nonnegative indent it never panics. -/
theorem c10_negative_indent_panics (data : List Char) (v : J) (w : Int) (sk : Bool)
    (hv : unmarshal data = some v) :
    (w < 0 → Format data ⟨w, sk⟩ = FmtResult.panicked) ∧
    (0 ≤ w → Format data ⟨w, sk⟩ ≠ FmtResult.panicked) := by
  unfold Format stringsRepeat
  rw [hv]
  constructor
  · intro hw
    simp [hw]
  · intro hw
    simp [not_lt.mpr hw]

/-- Witness for C10 at the document `null`: indent `-1` panics and indent
`0` does not. -/
theorem c10_negative_indent_panics_witness :
    Format txNull ⟨-1, false⟩ = FmtResult.panicked ∧
    Format txNull ⟨0, false⟩ ≠ FmtResult.panicked :=
  ⟨(c10_negative_indent_panics txNull J.null (-1) false rfl).1 (by decide),
   (c10_negative_indent_panics txNull J.null 0 false rfl).2 (by decide)⟩

/-- Claim C5, code behavior: with no argument, the root `main.go` resolver
reads standard input when it IS a character device (no data pending) and
fails with `no input file specified in pipe` when standard input is a
redirected pipe with data pending — the opposite of the claim — while the
`cmd/fj/main.go` resolver reads standard input unconditionally and can never
return a no-input error. -/
theorem c5_resolver_inverts_stdin_check :
    getInputNoArgs ⟨false, txEmptyObj⟩ = Except.error ResolveErr.noInputPipe ∧
    getInputNoArgs ⟨true, txEmptyObj⟩ = Except.ok txEmptyObj ∧
    ∀ st : StdinState, getInputNoArgsMain st = Except.ok st.content :=
  ⟨rfl, rfl, fun _ => rfl⟩

/-- Counterexample to claim C6: status 204 is in the 2xx range, yet
`readFromURL` fails with `HTTPError 204` instead of returning the body. -/
theorem c6_claim_fails_at_204 :
    ((200 : Int) ≤ 204 ∧ (204 : Int) < 300) ∧
    readFromURL (HTTPResp.success 204 txEmptyObj) = Except.error (ResolveErr.httpError 204) ∧
    readFromURL (HTTPResp.success 204 txEmptyObj) ≠ Except.ok txEmptyObj := by
  refine ⟨by decide, rfl, fun h => ?_⟩
  rw [show readFromURL (HTTPResp.success 204 txEmptyObj) =
        Except.error (ResolveErr.httpError 204) from rfl] at h
  exact Except.noConfusion h

/-- Claim C6 as amended: the fetch succeeds with the body exactly for status
200 (`http.StatusOK`); every other status fails with `HTTPError` carrying
the status, and a transport failure is a `NetworkError`. -/
theorem c6_status_200_only (st : Int) (body : List Char) :
    (readFromURL (HTTPResp.success st body) = Except.ok body ↔ st = 200) ∧
    (st ≠ 200 → readFromURL (HTTPResp.success st body) = Except.error (ResolveErr.httpError st)) ∧
    readFromURL HTTPResp.netFailure = Except.error ResolveErr.networkError := by
  unfold readFromURL
  refine ⟨?_, fun h => by simp [h], rfl⟩
  by_cases h : st = 200
  · simp [h]
  · simp [h]

/-- Witness for the amended C6 at status 404. -/
theorem c6_status_200_only_witness :
    readFromURL (HTTPResp.success 404 txEmptyObj) = Except.error (ResolveErr.httpError 404) :=
  (c6_status_200_only 404 txEmptyObj).2.1 (by decide)

/-- Claim C4, code behavior: on the exact one-line input
`\x7bname:"John","age":30,\x7d` the auto-corrector fails with a
`CorrectionError` instead of producing `\x7b"name":"John","age":30\x7d`: the
key candidate before the first colon is `\x7bname`, so the opening brace is
wrapped into the quotes, and the trailing comma is not followed by a
newline, so the comma repair never fires; the repaired text is still
invalid. -/
theorem c4_autocorrect_fails_on_spec_scenario : AutoCorrect txC4 = none := by rfl

/-- Counterexample to claim C3: on the line `"a: 1` the key candidate `"a`
begins with a double quote but does not end with one, so the claim requires
it to be wrapped, but the code leaves the line unchanged (it skips wrapping
whenever the candidate begins OR ends with a quote). -/
theorem c3_claim_fails_on_half_quoted_key : ¬ c3ClaimAt txC3cex := by
  unfold c3ClaimAt
  decide

/-- Claim C3 as amended: for every line containing a colon, the first
occurrence of the trimmed candidate key is wrapped in double quotes exactly
when the candidate neither begins nor ends with a double quote; a candidate
that begins or ends with one leaves the line unchanged. -/
theorem c3_wrap_iff_unquoted (line : List Char) (h : line.contains ':' = true) :
    (¬ ['"'].isPrefixOf (keyOf line) = true ∧ ¬ ['"'].isSuffixOf (keyOf line) = true →
      fixKeyLine line = wrapKey line) ∧
    (['"'].isPrefixOf (keyOf line) = true ∨ ['"'].isSuffixOf (keyOf line) = true →
      fixKeyLine line = line) := by
  unfold fixKeyLine
  rw [if_pos h]
  constructor
  · intro hc
    rw [if_pos hc]
  · intro hc
    have hn : ¬ (¬ ['"'].isPrefixOf (keyOf line) = true ∧ ¬ ['"'].isSuffixOf (keyOf line) = true) := by
      tauto
    rw [if_neg hn]

/-- Witness for the amended C3 at the line `a: 1`: the key is wrapped. -/
theorem c3_wrap_iff_unquoted_witness : fixKeyLine txC3wit = wrapKey txC3wit :=
  (c3_wrap_iff_unquoted txC3wit (by decide)).1 (by decide)

/-- Claim C1: for every byte string that parses as valid JSON and every
indent width `w ≥ 0`, `Format` with `sortKeys = false` succeeds, and its
output re-parses to a value deeply equal to the value parsed from the
input.  The re-parsed value is the recursive key-sort of the original,
because the Go encoder emits map keys sorted; it is deeply equal to the
original. -/
theorem c1_format_roundtrip_deepeq (data : List Char) (v : J) (w : Int)
    (hv : unmarshal data = some v) (hw : 0 ≤ w) :
    ∃ out v', Format data ⟨w, false⟩ = FmtResult.ok out ∧
      unmarshal out = some v' ∧ DeepEq v' v := by
  have hwf := unmarshal_wf data v hv
  exact ⟨serVal (List.replicate w.toNat ' ') 0 (sortJSONKeys v), sortJSONKeys v,
    Format_eq data v w false hv hw,
    unmarshal_serVal _ (replicate_space_ws _) _ (sjk_good v hwf).1,
    (deepEq_sjk v).1⟩

theorem c1_format_roundtrip_deepeq_witness :
    unmarshal txNull = some J.null ∧ (0 : Int) ≤ 2 ∧
    (∃ out v', Format txNull ⟨2, false⟩ = FmtResult.ok out ∧
      unmarshal out = some v' ∧ DeepEq v' J.null) :=
  ⟨rfl, by decide, c1_format_roundtrip_deepeq txNull J.null 2 rfl (by decide)⟩

/-- Claim C2: for every byte string that parses as valid JSON and every
indent width `w ≥ 0`, the output of `Format` with `sortKeys = true`
re-parses to a value whose every object node, at every depth and inside
arrays too, lists its keys in strictly ascending lexicographic order.  The
parser rebuilds members in their textual order (each fresh key is appended
by `dictInsert`), so the re-parse faithfully reflects the key order printed
in the output text. -/
theorem c2_format_sorted_keys (data : List Char) (v : J) (w : Int)
    (hv : unmarshal data = some v) (hw : 0 ≤ w) :
    ∃ out v', Format data ⟨w, true⟩ = FmtResult.ok out ∧
      unmarshal out = some v' ∧ keysSortedVal v' := by
  have hwf := unmarshal_wf data v hv
  exact ⟨serVal (List.replicate w.toNat ' ') 0 (sortJSONKeys v), sortJSONKeys v,
    Format_eq data v w true hv hw,
    unmarshal_serVal _ (replicate_space_ws _) _ (sjk_good v hwf).1,
    (sjk_good v hwf).2⟩

theorem c2_format_sorted_keys_witness :
    unmarshal txPair = some (J.obj [(['b'], J.num 1 0), (['a'], J.num 2 0)]) ∧
    (0 : Int) ≤ 1 ∧
    (∃ out v', Format txPair ⟨1, true⟩ = FmtResult.ok out ∧
      unmarshal out = some v' ∧ keysSortedVal v') :=
  ⟨rfl, by decide,
    c2_format_sorted_keys txPair (J.obj [(['b'], J.num 1 0), (['a'], J.num 2 0)]) 1
      rfl (by decide)⟩

/-- Claim C8: for every valid JSON document and any fixed options with a
nonnegative indent width, formatting the output of `Format` again with the
same options succeeds, and both outputs re-parse to the same value — in
fact the second output is byte-identical to the first, so formatting is
idempotent up to re-parsing. -/
theorem c8_format_idempotent (data : List Char) (v : J) (w : Int) (sk : Bool)
    (hv : unmarshal data = some v) (hw : 0 ≤ w) :
    ∃ out out₂ v', Format data ⟨w, sk⟩ = FmtResult.ok out ∧
      Format out ⟨w, sk⟩ = FmtResult.ok out₂ ∧
      unmarshal out = some v' ∧ unmarshal out₂ = some v' := by
  have hwf := unmarshal_wf data v hv
  have hout : unmarshal (serVal (List.replicate w.toNat ' ') 0 (sortJSONKeys v)) =
      some (sortJSONKeys v) :=
    unmarshal_serVal _ (replicate_space_ws _) _ (sjk_good v hwf).1
  have h2 := Format_eq (serVal (List.replicate w.toNat ' ') 0 (sortJSONKeys v))
    (sortJSONKeys v) w sk hout hw
  rw [sjk_idem] at h2
  exact ⟨_, _, sortJSONKeys v, Format_eq data v w sk hv hw, h2, hout, hout⟩

theorem c8_format_idempotent_witness :
    unmarshal txPair = some (J.obj [(['b'], J.num 1 0), (['a'], J.num 2 0)]) ∧
    (0 : Int) ≤ 4 ∧
    (∃ out out₂ v', Format txPair ⟨4, true⟩ = FmtResult.ok out ∧
      Format out ⟨4, true⟩ = FmtResult.ok out₂ ∧
      unmarshal out = some v' ∧ unmarshal out₂ = some v') :=
  ⟨rfl, by decide,
    c8_format_idempotent txPair (J.obj [(['b'], J.num 1 0), (['a'], J.num 2 0)]) 4 true
      rfl (by decide)⟩

end FJ
